import Mathlib

/-!
# Verification of the `lux` path-routing trie

A shallow embedding of the router core of the `lux` repository: the
segment trie (`Node`, `NodeTree`), route registration (`addRoute`), the
backtracking lookup (`Find` / `findNode` / `tryBacktrack`), and the
per-method tree registry of the serving engine.

Modelling conventions:
* Go handler functions are opaque; a `HandlerChain` (`[]HandlerFunc`) is a
  `List Nat` of handler identifiers.  A nil Go slice is the empty list, and
  Go's `handler != nil` test on a chain is `handler ≠ []`.
* A Go `panic` in `addRoute` is an `Option RouteError` returned next to the
  post-call tree state; the returned tree carries exactly the mutations the
  Go code performs before the panic point.
* The mutual recursion `findNode` / `tryBacktrack` is not structurally
  recursive (records popped from the skipped-node stack restart the search
  at earlier nodes), so it is embedded with an explicit fuel argument that
  every call decrements; `none` means the fuel ran out.  Fuel sufficiency
  for trees built by `addRoute` is proved as a theorem.
-/

namespace Lux

/-- `NodeType` of a trie node, as in the source: `Static`, `Root`,
`Parameter` (segment starting with `:`), `Wildcard` (starting with `*`). -/
inductive NodeType : Type where
  | Static : NodeType
  | Root : NodeType
  | Parameter : NodeType
  | Wildcard : NodeType
deriving DecidableEq, Repr

/-- A handler chain: ordered handler identifiers (`[]HandlerFunc`). -/
abbrev HandlerChain := List Nat

/-- A captured URL parameter (`Param{Key, Value}`). -/
structure Param : Type where
  Key : String
  Value : String
deriving DecidableEq, Repr

/-- `Params` is the ordered list of captured parameters. -/
abbrev Params := List Param

/-- A trie node: path segment, node type, handlers, children
(`Node` in the source; recursive, hence an inductive). -/
inductive Node : Type where
  | mk (Path : String) (nodeType : NodeType) (Handlers : HandlerChain)
      (Children : List Node) : Node

/-- The `Path` field of a node. -/
def Node.Path : Node → String
  | .mk p _ _ _ => p

/-- The `NodeType` field of a node. -/
def Node.nodeType : Node → NodeType
  | .mk _ t _ _ => t

/-- The `Handlers` field of a node. -/
def Node.Handlers : Node → HandlerChain
  | .mk _ _ h _ => h

/-- The `Children` field of a node. -/
def Node.Children : Node → List Node
  | .mk _ _ _ cs => cs

/-- Replace the handlers of a node (`current.Handlers = handlers`). -/
def Node.withHandlers : Node → HandlerChain → Node
  | .mk p t _ cs, h => .mk p t h cs

/-- Replace the `i`-th child of a node (writing back through the
`current` pointer of the Go walk). -/
def Node.setChild : Node → Nat → Node → Node
  | .mk p t h cs, i, c => .mk p t h (cs.set i c)

/-- Append a new child (`current.Children = append(current.Children, n)`). -/
def Node.addChild : Node → Node → Node
  | .mk p t h cs, c => .mk p t h (cs ++ [c])

/-- Model of Go's `strings.Split` for a one-character separator, on the
character list of the string: every maximal run between separators becomes
one (possibly empty) piece, and the result is always non-empty. -/
def splitOnChar (sep : Char) : List Char → List (List Char)
  | [] => [[]]
  | c :: cs =>
    match splitOnChar sep cs with
    | [] => [[]]
    | s :: ss => if c = sep then [] :: s :: ss else (c :: s) :: ss

/-- `splitPath` from the source: trim one leading `/`
(`strings.TrimPrefix(path, "/")`), an empty remainder is the single empty
segment, otherwise split on `/`. -/
def splitPath (path : String) : List String :=
  let cs : List Char :=
    if path.toList.head? = some '/' then path.toList.tail else path.toList
  if cs = [] then [""] else (splitOnChar '/' cs).map String.mk

/-- The child-matching test of the registration walk:
`child.Path == segment || (child.NodeType == Parameter && segment[0] == ':')`. -/
def childMatch (segment : String) (child : Node) : Bool :=
  child.Path == segment ||
    (child.nodeType == NodeType.Parameter && segment.front == ':')

/-- The node type a new segment gets at creation: `:` starts a Parameter,
`*` a Wildcard, anything else a Static node. -/
def segNodeType (segment : String) : NodeType :=
  if segment.front == ':' then NodeType.Parameter
  else if segment.front == '*' then NodeType.Wildcard
  else NodeType.Static

/-- Errors raised (as Go panics) by registration. -/
inductive RouteError : Type where
  | DuplicateRoute : RouteError
  | RootAlreadyRegistered : RouteError
deriving DecidableEq, Repr

/-- The registration loop shared by `Node.addRoute` and
`NodeTree.addRoute` (their loop bodies are identical in the source):
walk the segments from `node`, descending into a matching child or
creating one, skipping empty segments; at the last segment check for a
duplicate (`len(current.Handlers) > 0 && pathExists`) and otherwise
assign the handlers.  Returns the updated node together with the
`DuplicateRoute` panic, if raised. -/
def addRouteAux (node : Node) : List String → Bool → HandlerChain →
    Node × Option RouteError
  | [], _, _ => (node, none)
  | segment :: rest, pathExists, handlers =>
    if segment = "" then addRouteAux node rest pathExists handlers
    else
      match node.Children.findIdx? (childMatch segment) with
      | some i =>
        let child := node.Children.getD i (Node.mk "" NodeType.Static [] [])
        if rest = [] then
          if 0 < child.Handlers.length ∧ pathExists then
            (node, some RouteError.DuplicateRoute)
          else
            (node.setChild i (child.withHandlers handlers), none)
        else
          let r := addRouteAux child rest pathExists handlers
          (node.setChild i r.1, r.2)
      | none =>
        let nodeType := segNodeType segment
        let newNode : Node := .mk segment nodeType [] []
        if rest = [] then
          -- a node was just created, so `pathExists` is false and the
          -- duplicate check cannot fire; the handlers are assigned
          (node.addChild (newNode.withHandlers handlers), none)
        else
          let r := addRouteAux newNode rest false handlers
          (node.addChild r.1, r.2)

/-- `Node.addRoute` (the method on `*Node` used by the engine): run the
walk, then the root special case guarded by `len(path)==1 && path=="/"`. -/
def Node.addRoute (n : Node) (path : String) (handlers : HandlerChain) :
    Node × Option RouteError :=
  let r := addRouteAux n (splitPath path) true handlers
  match r.2 with
  | some e => (r.1, some e)
  | none =>
    if path = "/" then
      if 0 < r.1.Handlers.length then
        (r.1, some RouteError.RootAlreadyRegistered)
      else (r.1.withHandlers handlers, none)
    else (r.1, none)

/-- A router tree for one HTTP method. -/
structure NodeTree : Type where
  Root : Node
  Method : String

/-- `NewNodeTree`: a fresh tree whose root is `{NodeType: Root, Path: "/"}`. -/
def NewNodeTree : NodeTree :=
  { Root := .mk "/" NodeType.Root [] [], Method := "" }

/-- `NodeTree.addRoute`: the walk from the tree root, then the root
special case for the empty path or `"/"`. -/
def NodeTree.addRoute (nt : NodeTree) (path : String)
    (handlers : HandlerChain) : NodeTree × Option RouteError :=
  let r := addRouteAux nt.Root (splitPath path) true handlers
  match r.2 with
  | some e => ({ nt with Root := r.1 }, some e)
  | none =>
    if path = "" ∨ path = "/" then
      if 0 < r.1.Handlers.length then
        ({ nt with Root := r.1 }, some RouteError.RootAlreadyRegistered)
      else ({ nt with Root := r.1.withHandlers handlers }, none)
    else ({ nt with Root := r.1 }, none)

/-- A record on the backtracking stack (`skippedNode`): the bypassed
node, the segment index at which it was bypassed, and the length of the
`Params` accumulator at that moment. -/
structure SkippedNode : Type where
  node : Node
  segmentIdx : Nat
  paramsCount : Nat

/-- The records pushed before descending into a matching static child:
one per Parameter/Wildcard sibling, in child order, each holding the
current segment index and `Params` length. -/
def paramWildRecords (children : List Node) (index paramsCount : Nat) :
    List SkippedNode :=
  (children.filter fun c =>
      c.nodeType == NodeType.Parameter || c.nodeType == NodeType.Wildcard).map
    fun c => ⟨c, index, paramsCount⟩

/-- Result of one search call: the handler chain found (`[]` is Go's
`nil`), plus the final states of the `Params` accumulator and the
skipped-node stack, both threaded by pointer in the source. -/
abbrev FindResult := HandlerChain × Params × List SkippedNode

/-- One control point of the search: the entry of `findNode` at a node,
one of its three child loops (carrying the children still to scan), or
`tryBacktrack`.  The mutual recursion of the source is a single
fuel-structural function over these frames, so that results compute by
reduction. -/
inductive SearchFrame : Type where
  | atNode (node : Node) (params : Params) (index : Nat)
      (skipped : List SkippedNode) : SearchFrame
  | staticLoop (children : List Node) (node : Node) (params : Params)
      (index : Nat) (skipped : List SkippedNode) : SearchFrame
  | paramLoop (children : List Node) (node : Node) (params : Params)
      (index : Nat) (skipped : List SkippedNode) : SearchFrame
  | wildLoop (children : List Node) (node : Node) (params : Params)
      (index : Nat) (skipped : List SkippedNode) : SearchFrame
  | backtrack (params : Params) (skipped : List SkippedNode) : SearchFrame

/-- The search of `findNode`/`tryBacktrack`, one frame at a time, each
transfer of control costing one unit of fuel (`none` = fuel ran out):

* `atNode` is the entry of `findNode`: past the end of the segments (or
  at a final empty segment) return this node's handlers if non-empty,
  else backtrack; otherwise start the static loop;
* `staticLoop` tries each Static child whose path equals the current
  segment: push every Parameter/Wildcard sibling as a skipped record,
  recurse one segment deeper, return any non-`nil` result; then falls
  through to `paramLoop`;
* `paramLoop` tries each Parameter child: append a captured `Param`
  (key: the child's path without the leading `:`, value: the current
  segment), recurse, and on failure truncate the accumulator back to its
  previous length; then falls through to `wildLoop`;
* `wildLoop`: the first Wildcard child captures the rest of the path
  (joined with `/`) and its handlers are returned directly; with no
  wildcard child, backtrack;
* `backtrack` is `tryBacktrack`: with an empty stack the match fails
  (`nil`); otherwise pop the most recent record, truncate the
  accumulator to its snapshot, and resume from the recorded node at the
  next segment index (a Parameter record re-captures its segment first;
  a Wildcard record captures the remaining path and returns its handlers
  directly).

The accumulator rollbacks — `params2.take originalParamsLen` in the
parameter loop and `params.take skippedLast.paramsCount` here — render
the source's re-slice `(*params)[:n]`.  The two agree whenever `n` does
not exceed the current length.  When the length has dropped below `n`
(possible after a backtrack pop inside a failed descent), the source's
re-slice grows the slice back over previously written entries of the
backing array, which a `take` cannot express; statements that depend on
that corner are therefore guarded by a snapshot-within-length
hypothesis, or assert only facts on which both readings agree. -/
def searchFuel (segments : List String) : Nat → SearchFrame →
    Option FindResult
  | 0, _ => none
  | fuel + 1, .atNode node params index skipped =>
    if segments.length ≤ index then
      if 0 < node.Handlers.length then some (node.Handlers, params, skipped)
      else searchFuel segments fuel (.backtrack params skipped)
    else if segments.getD index "" = "" ∧ index = segments.length - 1 then
      if 0 < node.Handlers.length then some (node.Handlers, params, skipped)
      else searchFuel segments fuel (.backtrack params skipped)
    else
      searchFuel segments fuel
        (.staticLoop node.Children node params index skipped)
  | fuel + 1, .staticLoop [] node params index skipped =>
    searchFuel segments fuel
      (.paramLoop node.Children node params index skipped)
  | fuel + 1, .staticLoop (child :: rest) node params index skipped =>
    if child.nodeType = NodeType.Static ∧ child.Path = segments.getD index ""
    then
      let skipped1 :=
        skipped ++ paramWildRecords node.Children index params.length
      match searchFuel segments fuel
          (.atNode child params (index + 1) skipped1) with
      | none => none
      | some (handler, params1, skipped2) =>
        if handler ≠ [] then some (handler, params1, skipped2)
        else searchFuel segments fuel
          (.staticLoop rest node params1 index skipped2)
    else searchFuel segments fuel (.staticLoop rest node params index skipped)
  | fuel + 1, .paramLoop [] node params index skipped =>
    searchFuel segments fuel (.wildLoop node.Children node params index skipped)
  | fuel + 1, .paramLoop (child :: rest) node params index skipped =>
    if child.nodeType = NodeType.Parameter then
      let originalParamsLen := params.length
      let params1 := params ++ [⟨child.Path.drop 1, segments.getD index ""⟩]
      match searchFuel segments fuel
          (.atNode child params1 (index + 1) skipped) with
      | none => none
      | some (handler, params2, skipped2) =>
        if handler ≠ [] then some (handler, params2, skipped2)
        else searchFuel segments fuel
          (.paramLoop rest node (params2.take originalParamsLen) index skipped2)
    else searchFuel segments fuel (.paramLoop rest node params index skipped)
  | fuel + 1, .wildLoop [] _ params _ skipped =>
    searchFuel segments fuel (.backtrack params skipped)
  | fuel + 1, .wildLoop (child :: rest) node params index skipped =>
    if child.nodeType = NodeType.Wildcard then
      let remaining := String.intercalate "/" (segments.drop index)
      some (child.Handlers, params ++ [⟨child.Path.drop 1, remaining⟩], skipped)
    else searchFuel segments fuel (.wildLoop rest node params index skipped)
  | fuel + 1, .backtrack params skipped =>
    match skipped.getLast? with
    | none => some ([], params, skipped)
    | some skippedLast =>
      let rest := skipped.dropLast
      let params1 := params.take skippedLast.paramsCount
      if skippedLast.node.nodeType = NodeType.Parameter then
        let segment := segments.getD skippedLast.segmentIdx ""
        searchFuel segments fuel (.atNode skippedLast.node
          (params1 ++ [⟨skippedLast.node.Path.drop 1, segment⟩])
          (skippedLast.segmentIdx + 1) rest)
      else if skippedLast.node.nodeType = NodeType.Wildcard then
        let remaining :=
          String.intercalate "/" (segments.drop skippedLast.segmentIdx)
        some (skippedLast.node.Handlers,
          params1 ++ [⟨skippedLast.node.Path.drop 1, remaining⟩], rest)
      else
        searchFuel segments fuel (.atNode skippedLast.node params1
          (skippedLast.segmentIdx + 1) rest)

/-- `findNode`, as the search started at the `findNode` entry frame. -/
def findNodeFuel (fuel : Nat) (node : Node) (segments : List String)
    (params : Params) (index : Nat) (skipped : List SkippedNode) :
    Option FindResult :=
  searchFuel segments fuel (.atNode node params index skipped)

/-- `tryBacktrack`, as the search started at the backtracking frame. -/
def tryBacktrackFuel (fuel : Nat) (segments : List String) (params : Params)
    (skipped : List SkippedNode) : Option FindResult :=
  searchFuel segments fuel (.backtrack params skipped)

/-- `NodeTree.Find` with fuel: split the path, run `findNode` from the
root with empty accumulator and stack, return the handlers and the final
`Params` (`none` only when the fuel ran out). -/
def NodeTree.FindFuel (nt : NodeTree) (fuel : Nat) (path : String) :
    Option (HandlerChain × Params) :=
  let segments := splitPath path
  match findNodeFuel fuel nt.Root segments [] 0 [] with
  | none => none
  | some (handler, params, _) => some (handler, params)

/-- `methodTrees.get`: the root of the first tree registered for the
method, if any. -/
def treesGet : List NodeTree → String → Option Node
  | [], _ => none
  | t :: ts, method => if t.Method = method then some t.Root else treesGet ts method

/-- `Engine.addRoute`: find the tree for the method (creating and
appending a fresh one with root `{Path: "/"}` when absent) and delegate
to `Node.addRoute` on its root. -/
def engineAddRoute : List NodeTree → String → String → HandlerChain →
    List NodeTree × Option RouteError
  | [], method, path, handlers =>
    let r := Node.addRoute (.mk "/" NodeType.Static [] []) path handlers
    ([{ Root := r.1, Method := method }], r.2)
  | t :: ts, method, path, handlers =>
    if t.Method = method then
      let r := Node.addRoute t.Root path handlers
      ({ Root := r.1, Method := t.Method } :: ts, r.2)
    else
      let r := engineAddRoute ts method path handlers
      (t :: r.1, r.2)

/-- The outcome of `Engine.handleHttpRequest`'s routing loop: either a
handler chain with its `Params`, or the final `c.Abort()`. -/
inductive Dispatched : Type where
  | routed (handler : HandlerChain) (params : Params) : Dispatched
  | aborted : Dispatched
deriving DecidableEq, Repr

/-- `Engine.handleHttpRequest`'s routing loop, with fuel for the inner
`Find`: scan the trees in order, skip those for other methods, and run
`Find`; a non-`nil` chain is dispatched, otherwise the scan continues and
ends in `Abort`. -/
def dispatchFuel (fuel : Nat) : List NodeTree → String → String →
    Option Dispatched
  | [], _, _ => some .aborted
  | t :: ts, method, path =>
    if t.Method = method then
      match t.FindFuel fuel path with
      | none => none
      | some (handler, params) =>
        if handler ≠ [] then some (.routed handler params)
        else dispatchFuel fuel ts method path
    else dispatchFuel fuel ts method path

/-! ### Observers and auxiliary notions used by the theorems -/

/-- The read-only part of the registration walk: descend through existing
children (skipping empty segments) and return the node the walk ends at,
or `none` as soon as a segment finds no matching child (which is where
`addRoute` would create a node). -/
def walkNoCreate (node : Node) : List String → Option Node
  | [] => some node
  | segment :: rest =>
    if segment = "" then walkNoCreate node rest
    else
      match node.Children.findIdx? (childMatch segment) with
      | some i =>
        walkNoCreate (node.Children.getD i (Node.mk "" NodeType.Static [] []))
          rest
      | none => none

/-- The registration walk without any handler assignment: descend or
create exactly as `addRouteAux` does, but never touch a `Handlers` field
(the definition takes no handler chain at all).  `addRoute` on a path
whose final segment is empty coincides with this. -/
def extendPath (node : Node) : List String → Node
  | [] => node
  | segment :: rest =>
    if segment = "" then extendPath node rest
    else
      match node.Children.findIdx? (childMatch segment) with
      | some i =>
        node.setChild i
          (extendPath (node.Children.getD i (Node.mk "" NodeType.Static [] []))
            rest)
      | none =>
        node.addChild (extendPath (.mk segment (segNodeType segment) [] []) rest)

/-- The spine of nodes `addRoute` creates for a path registered into a
tree with no matching children: one node per segment, typed by its
leading character, the handlers sitting on the last node. -/
def chainNodes : List String → HandlerChain → List Node
  | [], _ => []
  | s :: rest, handlers =>
    [Node.mk s (segNodeType s) (if rest = [] then handlers else [])
      (chainNodes rest handlers)]

/-- `Subst segs vals`: `vals` is `segs` with every `:name` segment
replaced by an arbitrary non-empty value and every other (non-empty,
non-wildcard) segment kept literally — the "concrete values substituted
for parameter segments" of the round-trip guarantee. -/
inductive Subst : List String → List String → Prop where
  | nil : Subst [] []
  | static (s : String) {ss vs : List String} (h1 : s ≠ "")
      (h2 : s.front ≠ ':') (h3 : s.front ≠ '*') (h : Subst ss vs) :
      Subst (s :: ss) (s :: vs)
  | param (s v : String) {ss vs : List String} (h1 : s.front = ':')
      (h2 : v ≠ "") (h : Subst ss vs) : Subst (s :: ss) (v :: vs)

/-- The parameters a matching walk captures along a substituted path: one
`Param` per `:name` segment, key without the `:`, in path order. -/
def capturedParams : List String → List String → Params
  | s :: ss, v :: vs =>
    (if s.front = ':' then [⟨s.drop 1, v⟩] else []) ++ capturedParams ss vs
  | _, _ => []

/-- Number of nodes in a subtree. -/
def Node.size : Node → Nat
  | .mk _ _ _ cs => 1 + (cs.attach.map fun c => Node.size c.1).sum
decreasing_by
  have := List.sizeOf_lt_of_mem c.2
  simp only [Node.mk.sizeOf_spec]
  omega

/-- Exponential weight of a subtree, the potential used to bound the
work of the backtracking search. -/
def nodeW (n : Node) : Nat := 3 ^ n.size

/-- Total weight of the subtrees referenced by a skipped-node stack. -/
def stackW (skipped : List SkippedNode) : Nat :=
  (skipped.map fun r => nodeW r.node).sum

/-- The structural invariant `addRoute` maintains: children carry
pairwise distinct path segments, at most one child is a Parameter, and
the same holds below.  (Matching relies on it: at most one Static child
can match a segment, and the parameter loop descends at most once.) -/
inductive WFNode : Node → Prop where
  | mk (Path : String) (t : NodeType) (handlers : HandlerChain)
      (children : List Node)
      (hpaths : children.Pairwise fun a b => a.Path ≠ b.Path)
      (hparam :
        (children.filter fun c => c.nodeType == NodeType.Parameter).length ≤ 1)
      (hchildren : ∀ c ∈ children, WFNode c) :
      WFNode (.mk Path t handlers children)

/-- Every node referenced by a skipped-node stack is well-formed. -/
def WFStack (skipped : List SkippedNode) : Prop :=
  ∀ r ∈ skipped, WFNode r.node

/-- Trees reachable from `NewNodeTree` by a finite sequence of `addRoute`
calls (failing calls leave the tree as they found it and are allowed in
the sequence). -/
inductive BuiltTree : NodeTree → Prop where
  | new : BuiltTree NewNodeTree
  | add (t : NodeTree) (path : String) (handlers : HandlerChain) :
      BuiltTree t → BuiltTree (t.addRoute path handlers).1

/-! ### Completion of the search

`Computes segments fr r` says the search from frame `fr` returns `r`
once the fuel reaches some threshold — and then for every larger fuel,
so a result is never an artifact of one particular fuel value.  The
lemmas that follow mirror the branches of `searchFuel` one for one and
let completion proofs follow the control flow of the source. -/

/-- The search from `fr` returns `r` for every sufficiently large fuel. -/
def Computes (segments : List String) (fr : SearchFrame) (r : FindResult) :
    Prop :=
  ∃ c, ∀ f, c ≤ f → searchFuel segments f fr = some r

namespace Computes

variable {segments : List String} {node child : Node} {rest : List Node}
variable {params params1 params2 : Params} {index : Nat}
variable {skipped skipped2 : List SkippedNode} {handler : HandlerChain}
variable {r : FindResult} {sk : SkippedNode}

/-- A frame that returns a value in one step computes it. -/
theorem ret {fr : SearchFrame}
    (h : ∀ f, searchFuel segments (f + 1) fr = some r) :
    Computes segments fr r :=
  ⟨1, fun f hf => by
    cases f with
    | zero => omega
    | succ g => exact h g⟩

/-- A frame that steps to another frame in one step computes whatever the
latter computes. -/
theorem step {fr fr' : SearchFrame}
    (h : ∀ f, searchFuel segments (f + 1) fr = searchFuel segments f fr')
    (hc : Computes segments fr' r) : Computes segments fr r := by
  obtain ⟨c, hc⟩ := hc
  exact ⟨c + 1, fun f hf => by
    cases f with
    | zero => omega
    | succ g => rw [h g]; exact hc g (by omega)⟩

/-- `findNode` entry, past the last segment, at a node with handlers. -/
theorem atEnd (hi : segments.length ≤ index)
    (hh : 0 < node.Handlers.length) :
    Computes segments (.atNode node params index skipped)
      (node.Handlers, params, skipped) :=
  ret fun f => by simp only [searchFuel]; rw [if_pos hi, if_pos hh]

/-- `findNode` entry, past the last segment, no handlers: backtrack. -/
theorem atEndBt (hi : segments.length ≤ index)
    (hh : ¬ 0 < node.Handlers.length)
    (k : Computes segments (.backtrack params skipped) r) :
    Computes segments (.atNode node params index skipped) r :=
  step (fun f => by simp only [searchFuel]; rw [if_pos hi, if_neg hh]) k

/-- `findNode` entry at a final empty segment, at a node with handlers. -/
theorem atTrail (hi : ¬ segments.length ≤ index)
    (ht : segments.getD index "" = "" ∧ index = segments.length - 1)
    (hh : 0 < node.Handlers.length) :
    Computes segments (.atNode node params index skipped)
      (node.Handlers, params, skipped) :=
  ret fun f => by
    simp only [searchFuel]; rw [if_neg hi, if_pos ht, if_pos hh]

/-- `findNode` entry at a final empty segment, no handlers: backtrack. -/
theorem atTrailBt (hi : ¬ segments.length ≤ index)
    (ht : segments.getD index "" = "" ∧ index = segments.length - 1)
    (hh : ¬ 0 < node.Handlers.length)
    (k : Computes segments (.backtrack params skipped) r) :
    Computes segments (.atNode node params index skipped) r :=
  step (fun f => by
    simp only [searchFuel]; rw [if_neg hi, if_pos ht, if_neg hh]) k

/-- `findNode` entry with a segment to match: start the static loop. -/
theorem atStep (hi : ¬ segments.length ≤ index)
    (ht : ¬ (segments.getD index "" = "" ∧ index = segments.length - 1))
    (k : Computes segments
      (.staticLoop node.Children node params index skipped) r) :
    Computes segments (.atNode node params index skipped) r :=
  step (fun f => by simp only [searchFuel]; rw [if_neg hi, if_neg ht]) k

/-- Exhausted static loop: fall through to the parameter loop. -/
theorem sNil
    (k : Computes segments
      (.paramLoop node.Children node params index skipped) r) :
    Computes segments (.staticLoop [] node params index skipped) r :=
  step (fun f => by simp only [searchFuel]) k

/-- Static child matches and the descent returns non-`nil`: return it. -/
theorem sHit
    (hm : child.nodeType = NodeType.Static ∧
      child.Path = segments.getD index "")
    (hin : Computes segments (.atNode child params (index + 1)
      (skipped ++ paramWildRecords node.Children index params.length))
      (handler, params1, skipped2))
    (hne : handler ≠ []) :
    Computes segments (.staticLoop (child :: rest) node params index skipped)
      (handler, params1, skipped2) := by
  obtain ⟨c, hc⟩ := hin
  refine ⟨c + 1, fun f hf => ?_⟩
  cases f with
  | zero => omega
  | succ g =>
    simp only [searchFuel]
    rw [if_pos hm, hc g (by omega)]
    simp [hne]

/-- Static child matches but the descent returns `nil`: continue the loop
with the accumulator and stack the descent left behind. -/
theorem sCont
    (hm : child.nodeType = NodeType.Static ∧
      child.Path = segments.getD index "")
    (hin : Computes segments (.atNode child params (index + 1)
      (skipped ++ paramWildRecords node.Children index params.length))
      ([], params1, skipped2))
    (k : Computes segments (.staticLoop rest node params1 index skipped2) r) :
    Computes segments (.staticLoop (child :: rest) node params index skipped)
      r := by
  obtain ⟨c1, hc1⟩ := hin
  obtain ⟨c2, hc2⟩ := k
  refine ⟨c1 + c2 + 1, fun f hf => ?_⟩
  cases f with
  | zero => omega
  | succ g =>
    simp only [searchFuel]
    rw [if_pos hm, hc1 g (by omega)]
    simpa using hc2 g (by omega)

/-- Static child does not match: continue the loop. -/
theorem sMiss
    (hm : ¬ (child.nodeType = NodeType.Static ∧
      child.Path = segments.getD index ""))
    (k : Computes segments (.staticLoop rest node params index skipped) r) :
    Computes segments (.staticLoop (child :: rest) node params index skipped)
      r :=
  step (fun f => by simp only [searchFuel]; rw [if_neg hm]) k

/-- Exhausted parameter loop: fall through to the wildcard loop. -/
theorem pNil
    (k : Computes segments
      (.wildLoop node.Children node params index skipped) r) :
    Computes segments (.paramLoop [] node params index skipped) r :=
  step (fun f => by simp only [searchFuel]) k

/-- Parameter child: capture the segment, and the descent returns
non-`nil`: return it. -/
theorem pHit (hp : child.nodeType = NodeType.Parameter)
    (hin : Computes segments (.atNode child
      (params ++ [⟨child.Path.drop 1, segments.getD index ""⟩])
      (index + 1) skipped) (handler, params2, skipped2))
    (hne : handler ≠ []) :
    Computes segments (.paramLoop (child :: rest) node params index skipped)
      (handler, params2, skipped2) := by
  obtain ⟨c, hc⟩ := hin
  refine ⟨c + 1, fun f hf => ?_⟩
  cases f with
  | zero => omega
  | succ g =>
    simp only [searchFuel]
    rw [if_pos hp, hc g (by omega)]
    simp [hne]

/-- Parameter child: the descent returns `nil`: truncate the accumulator
back to its previous length and continue the loop. -/
theorem pCont (hp : child.nodeType = NodeType.Parameter)
    (hin : Computes segments (.atNode child
      (params ++ [⟨child.Path.drop 1, segments.getD index ""⟩])
      (index + 1) skipped) ([], params2, skipped2))
    (k : Computes segments
      (.paramLoop rest node (params2.take params.length) index skipped2) r) :
    Computes segments (.paramLoop (child :: rest) node params index skipped)
      r := by
  obtain ⟨c1, hc1⟩ := hin
  obtain ⟨c2, hc2⟩ := k
  refine ⟨c1 + c2 + 1, fun f hf => ?_⟩
  cases f with
  | zero => omega
  | succ g =>
    simp only [searchFuel]
    rw [if_pos hp, hc1 g (by omega)]
    simpa using hc2 g (by omega)

/-- Non-Parameter child in the parameter loop: continue. -/
theorem pMiss (hp : ¬ child.nodeType = NodeType.Parameter)
    (k : Computes segments (.paramLoop rest node params index skipped) r) :
    Computes segments (.paramLoop (child :: rest) node params index skipped)
      r :=
  step (fun f => by simp only [searchFuel]; rw [if_neg hp]) k

/-- Exhausted wildcard loop: backtrack. -/
theorem wNil
    (k : Computes segments (.backtrack params skipped) r) :
    Computes segments (.wildLoop [] node params index skipped) r :=
  step (fun f => by simp only [searchFuel]) k

/-- Wildcard child: capture the rest of the path and return its handlers
directly. -/
theorem wHit (hw : child.nodeType = NodeType.Wildcard) :
    Computes segments (.wildLoop (child :: rest) node params index skipped)
      (child.Handlers, params ++
        [⟨child.Path.drop 1,
          String.intercalate "/" (segments.drop index)⟩], skipped) :=
  ret fun f => by simp only [searchFuel]; rw [if_pos hw]

/-- Non-Wildcard child in the wildcard loop: continue. -/
theorem wMiss (hw : ¬ child.nodeType = NodeType.Wildcard)
    (k : Computes segments (.wildLoop rest node params index skipped) r) :
    Computes segments (.wildLoop (child :: rest) node params index skipped)
      r :=
  step (fun f => by simp only [searchFuel]; rw [if_neg hw]) k

/-- Backtracking with an empty stack: the match fails with `nil`. -/
theorem btNil (hl : skipped.getLast? = none) :
    Computes segments (.backtrack params skipped) ([], params, skipped) :=
  ret fun f => by simp only [searchFuel]; rw [hl]

/-- Backtracking to a Parameter record: truncate the accumulator to the
snapshot, re-capture the recorded segment, resume after it. -/
theorem btParam (hl : skipped.getLast? = some sk)
    (hp : sk.node.nodeType = NodeType.Parameter)
    (k : Computes segments (.atNode sk.node
      (params.take sk.paramsCount ++
        [⟨sk.node.Path.drop 1, segments.getD sk.segmentIdx ""⟩])
      (sk.segmentIdx + 1) skipped.dropLast) r) :
    Computes segments (.backtrack params skipped) r :=
  step (fun f => by simp only [searchFuel]; rw [hl]; simp only [if_pos hp]) k

/-- Backtracking to a Wildcard record: truncate, capture the remaining
path, return the record's handlers directly. -/
theorem btWild (hl : skipped.getLast? = some sk)
    (hw : sk.node.nodeType = NodeType.Wildcard) :
    Computes segments (.backtrack params skipped)
      (sk.node.Handlers, params.take sk.paramsCount ++
        [⟨sk.node.Path.drop 1,
          String.intercalate "/" (segments.drop sk.segmentIdx)⟩],
        skipped.dropLast) :=
  ret fun f => by
    simp only [searchFuel]
    rw [hl]
    have hp : ¬ sk.node.nodeType = NodeType.Parameter := by
      rw [hw]; intro h; cases h
    simp only [if_neg hp, if_pos hw]

/-- Backtracking to a Static record: truncate and resume after the
recorded segment. -/
theorem btStatic (hl : skipped.getLast? = some sk)
    (hp : ¬ sk.node.nodeType = NodeType.Parameter)
    (hw : ¬ sk.node.nodeType = NodeType.Wildcard)
    (k : Computes segments (.atNode sk.node (params.take sk.paramsCount)
      (sk.segmentIdx + 1) skipped.dropLast) r) :
    Computes segments (.backtrack params skipped) r :=
  step (fun f => by
    simp only [searchFuel]; rw [hl]; simp only [if_neg hp, if_neg hw]) k

end Computes

/-- A completed search gives `Find`'s value for every sufficiently large
fuel. -/
theorem FindFuel_of_computes {nt : NodeTree} {path : String}
    {handler : HandlerChain} {ps : Params} {sk : List SkippedNode}
    (h : Computes (splitPath path) (.atNode nt.Root [] 0 []) (handler, ps, sk)) :
    ∃ F, ∀ f, F ≤ f → nt.FindFuel f path = some (handler, ps) := by
  obtain ⟨c, hc⟩ := h
  refine ⟨c, fun f hf => ?_⟩
  simp only [NodeTree.FindFuel, findNodeFuel, hc f hf]

/-! ### Claim theorems -/

/-- C3: with both `/users/:id` and `/users/profile` registered — in either
order — `Find("/users/profile")` returns the chain of the static route,
with no captured parameters: at each node Static children matching the
segment literally are tried before any Parameter child (and Parameter
before Wildcard, which is the order of the three child loops). -/
theorem static_beats_parameter (Hs Hp : HandlerChain) (h : Hs ≠ []) :
    ∃ F, ∀ f, F ≤ f →
      NodeTree.FindFuel
        ((NodeTree.addRoute (NewNodeTree.addRoute "/users/:id" Hp).1
          "/users/profile" Hs).1) f "/users/profile" = some (Hs, []) ∧
      NodeTree.FindFuel
        ((NodeTree.addRoute (NewNodeTree.addRoute "/users/profile" Hs).1
          "/users/:id" Hp).1) f "/users/profile" = some (Hs, []) := by
  have h1 : ∃ F, ∀ f, F ≤ f →
      NodeTree.FindFuel
        ((NodeTree.addRoute (NewNodeTree.addRoute "/users/:id" Hp).1
          "/users/profile" Hs).1) f "/users/profile" = some (Hs, []) :=
    FindFuel_of_computes
      (Computes.atStep (by decide) (by decide)
        (Computes.sHit ⟨rfl, rfl⟩
          (Computes.atStep (by decide) (by decide)
            (Computes.sMiss (fun hc => nomatch hc.1)
              (Computes.sHit ⟨rfl, rfl⟩
                (Computes.atEnd (by decide) (List.length_pos.mpr h))
                h)))
          h))
  have h2 : ∃ F, ∀ f, F ≤ f →
      NodeTree.FindFuel
        ((NodeTree.addRoute (NewNodeTree.addRoute "/users/profile" Hs).1
          "/users/:id" Hp).1) f "/users/profile" = some (Hs, []) :=
    FindFuel_of_computes
      (Computes.atStep (by decide) (by decide)
        (Computes.sHit ⟨rfl, rfl⟩
          (Computes.atStep (by decide) (by decide)
            (Computes.sHit ⟨rfl, rfl⟩
              (Computes.atEnd (by decide) (List.length_pos.mpr h))
              h))
          h))
  obtain ⟨F1, h1⟩ := h1
  obtain ⟨F2, h2⟩ := h2
  exact ⟨max F1 F2, fun f hf =>
    ⟨h1 f (le_trans (le_max_left _ _) hf), h2 f (le_trans (le_max_right _ _) hf)⟩⟩

/-- C3 witness at `Hs = [3]`, `Hp = [9]`. -/
theorem static_beats_parameter_witness :
    ([3] : HandlerChain) ≠ [] ∧
    ∃ F, ∀ f, F ≤ f →
      NodeTree.FindFuel
        ((NodeTree.addRoute (NewNodeTree.addRoute "/users/:id" [9]).1
          "/users/profile" [3]).1) f "/users/profile" = some ([3], []) ∧
      NodeTree.FindFuel
        ((NodeTree.addRoute (NewNodeTree.addRoute "/users/profile" [3]).1
          "/users/:id" [9]).1) f "/users/profile" = some ([3], []) :=
  ⟨by decide, static_beats_parameter [3] [9] (by decide)⟩

/-- C6: with `/static/*filepath` registered carrying chain `H` (the
registration succeeds for every `H`), finding `/static/css/style.css`
returns `H` together with the single parameter
`{filepath, "css/style.css"}`: the wildcard child captures the remaining
segments rejoined with `/` under its path stripped of the leading `*`,
and its handlers are returned immediately. -/
theorem wildcard_capture (H : HandlerChain) :
    (NewNodeTree.addRoute "/static/*filepath" H).2 = none ∧
    ∃ F, ∀ f, F ≤ f →
      NodeTree.FindFuel ((NewNodeTree.addRoute "/static/*filepath" H).1) f
        "/static/css/style.css" =
        some (H, [⟨"filepath", "css/style.css"⟩]) := by
  refine ⟨rfl, ?_⟩
  match H with
  | [] =>
    exact FindFuel_of_computes
      (Computes.atStep (by decide) (by decide)
        (Computes.sCont ⟨rfl, rfl⟩
          (Computes.atStep (by decide) (by decide)
            (Computes.sMiss (fun hc => nomatch hc.1)
              (Computes.sNil
                (Computes.pMiss (fun hc => nomatch hc)
                  (Computes.pNil
                    (Computes.wHit rfl))))))
          (Computes.sNil
            (Computes.pMiss (fun hc => nomatch hc)
              (Computes.pNil
                (Computes.wMiss (fun hc => nomatch hc)
                  (Computes.wNil
                    (Computes.btNil rfl))))))))
  | a :: as =>
    exact FindFuel_of_computes
      (Computes.atStep (by decide) (by decide)
        (Computes.sHit ⟨rfl, rfl⟩
          (Computes.atStep (by decide) (by decide)
            (Computes.sMiss (fun hc => nomatch hc.1)
              (Computes.sNil
                (Computes.pMiss (fun hc => nomatch hc)
                  (Computes.pNil
                    (Computes.wHit rfl))))))
          (List.cons_ne_nil a as)))

/-- C7: on the tree with `/users` and `/posts/:id` registered, finding
the unregistered paths `/unknown` and `/posts` returns the empty handler
chain (Go's `nil`) with no captures; no error is possible: the lookup's
type has no error outcome at all, a miss is the ordinary value `nil`. -/
theorem find_miss_is_silent :
    ∃ F, ∀ f, F ≤ f →
      NodeTree.FindFuel
        ((NodeTree.addRoute (NewNodeTree.addRoute "/users" [1]).1
          "/posts/:id" [2]).1) f "/unknown" = some ([], []) ∧
      NodeTree.FindFuel
        ((NodeTree.addRoute (NewNodeTree.addRoute "/users" [1]).1
          "/posts/:id" [2]).1) f "/posts" = some ([], []) := by
  have h1 : ∃ F, ∀ f, F ≤ f →
      NodeTree.FindFuel
        ((NodeTree.addRoute (NewNodeTree.addRoute "/users" [1]).1
          "/posts/:id" [2]).1) f "/unknown" = some ([], []) :=
    FindFuel_of_computes
      (Computes.atStep (by decide) (by decide)
        (Computes.sMiss (by decide)
          (Computes.sMiss (by decide)
            (Computes.sNil
              (Computes.pMiss (by decide)
                (Computes.pMiss (by decide)
                  (Computes.pNil
                    (Computes.wMiss (by decide)
                      (Computes.wMiss (by decide)
                        (Computes.wNil (Computes.btNil rfl)))))))))))
  have h2 : ∃ F, ∀ f, F ≤ f →
      NodeTree.FindFuel
        ((NodeTree.addRoute (NewNodeTree.addRoute "/users" [1]).1
          "/posts/:id" [2]).1) f "/posts" = some ([], []) :=
    FindFuel_of_computes
      (Computes.atStep (by decide) (by decide)
        (Computes.sMiss (by decide)
          (Computes.sCont (by decide)
            (Computes.atEndBt (by decide) (by decide)
              (Computes.btNil rfl))
            (Computes.sNil
              (Computes.pMiss (by decide)
                (Computes.pMiss (by decide)
                  (Computes.pNil
                    (Computes.wMiss (by decide)
                      (Computes.wMiss (by decide)
                        (Computes.wNil (Computes.btNil rfl)))))))))))
  obtain ⟨F1, h1⟩ := h1
  obtain ⟨F2, h2⟩ := h2
  exact ⟨max F1 F2, fun f hf =>
    ⟨h1 f (le_trans (le_max_left _ _) hf), h2 f (le_trans (le_max_right _ _) hf)⟩⟩

/-- C2 (corrected): backtracking pops the most recent skipped-node
record, truncates the `Params` accumulator to exactly the length
snapshot stored in the record, and resumes `findNode` from the recorded
node at the segment index after the recorded one (first conjunct, for
Parameter and Static records, over every search state whose accumulator
is at least as long as the snapshot — the regime in which the
embedding's truncation and the source's slice re-slice coincide); and a
static branch that matches syntactically but reaches no terminal handler
loses to a parameterized sibling that does: with `/x/s/:a/q` (chain
`H1`) and `/x/:b/zz` (chain `H2 ≠ []`) registered, `Find("/x/s/zz")`
returns `H2` and exactly the winning branch's capture `{b, "s"}` — the
capture `{a, "zz"}` made along the abandoned `/x/s` branch is undone by
the truncation, and no rollback of this trace ever sees an accumulator
shorter than its snapshot.  In general the returned `Params` are NOT
exactly the winning branch's captures: the counterexample theorem for
this claim shows an abandoned sibling capture surviving into a
successful result while a winning-branch capture is missing. -/
theorem backtrack_truncates_and_resumes :
    (∀ (segments : List String) (params : Params)
      (skipped : List SkippedNode) (sk : SkippedNode) (f : Nat),
      skipped.getLast? = some sk →
      sk.paramsCount ≤ params.length →
      (sk.node.nodeType = NodeType.Parameter →
        tryBacktrackFuel (f + 1) segments params skipped =
          findNodeFuel f sk.node segments
            (params.take sk.paramsCount ++
              [⟨sk.node.Path.drop 1, segments.getD sk.segmentIdx ""⟩])
            (sk.segmentIdx + 1) skipped.dropLast) ∧
      (sk.node.nodeType = NodeType.Static →
        tryBacktrackFuel (f + 1) segments params skipped =
          findNodeFuel f sk.node segments (params.take sk.paramsCount)
            (sk.segmentIdx + 1) skipped.dropLast)) ∧
    (∀ H1 H2 : HandlerChain, H2 ≠ [] →
      ∃ F, ∀ f, F ≤ f →
        NodeTree.FindFuel
          ((NodeTree.addRoute (NewNodeTree.addRoute "/x/s/:a/q" H1).1
            "/x/:b/zz" H2).1) f "/x/s/zz" = some (H2, [⟨"b", "s"⟩])) := by
  constructor
  · intro segments params skipped sk f hl _hn
    constructor
    · intro hp
      simp only [tryBacktrackFuel, findNodeFuel, searchFuel, hl]
      rw [if_pos hp]
    · intro hs
      have hp : ¬ sk.node.nodeType = NodeType.Parameter := by
        rw [hs]; intro h; cases h
      have hw : ¬ sk.node.nodeType = NodeType.Wildcard := by
        rw [hs]; intro h; cases h
      simp only [tryBacktrackFuel, findNodeFuel, searchFuel, hl,
        if_neg hp, if_neg hw]
  · intro H1 H2 h2
    exact FindFuel_of_computes
      (Computes.atStep (by decide) (by decide)
        (Computes.sHit ⟨rfl, rfl⟩
          (Computes.atStep (by decide) (by decide)
            (Computes.sHit ⟨rfl, rfl⟩
              (Computes.atStep (by decide) (by decide)
                (Computes.sMiss (fun hc => nomatch hc.1)
                  (Computes.sNil
                    (Computes.pHit rfl
                      (Computes.atEndBt (by decide) (Nat.lt_irrefl 0)
                        (Computes.btParam rfl rfl
                          (Computes.atStep
                            (by decide : ¬ (splitPath "/x/s/zz").length ≤ 2)
                            (by decide :
                              ¬ ((splitPath "/x/s/zz").getD 2 "" = "" ∧
                                2 = (splitPath "/x/s/zz").length - 1))
                            (Computes.sHit ⟨rfl, rfl⟩
                              (Computes.atEnd
                                (by decide : (splitPath "/x/s/zz").length ≤ 3)
                                (List.length_pos.mpr h2))
                              h2))))
                      h2))))
              h2))
          h2))

/-- C2 witness: the mechanism equation at a concrete Parameter record
whose snapshot `0` is within the accumulator length `1`, and the
behavioral instance at `H1 = [1]`, `H2 = [2]`. -/
theorem backtrack_truncates_and_resumes_witness :
    ((0 : Nat) ≤ 1 ∧
      tryBacktrackFuel 6 ["u"] [⟨"a", "v"⟩]
          [⟨Node.mk ":b" NodeType.Parameter [7] [], 0, 0⟩] =
        findNodeFuel 5 (Node.mk ":b" NodeType.Parameter [7] []) ["u"]
          [⟨"b", "u"⟩] 1 []) ∧
    ∃ F, ∀ f, F ≤ f →
      NodeTree.FindFuel
        ((NodeTree.addRoute (NewNodeTree.addRoute "/x/s/:a/q" [1]).1
          "/x/:b/zz" [2]).1) f "/x/s/zz" = some ([2], [⟨"b", "s"⟩]) :=
  ⟨⟨by decide,
    (backtrack_truncates_and_resumes.1 ["u"] [⟨"a", "v"⟩]
      [⟨Node.mk ":b" NodeType.Parameter [7] [], 0, 0⟩]
      ⟨Node.mk ":b" NodeType.Parameter [7] [], 0, 0⟩ 5 rfl
      (by decide)).1 rfl⟩,
    backtrack_truncates_and_resumes.2 [1] [2] (by decide)⟩

/-- C2 counterexample: the claim's universal conclusion fails.  On the
tree `{/s/k/, /:b/b2/:g/:h/:i/junk, /:b/b2/:g/:h/*w, /:b/:c2/junk2}`,
the request `/s/b2/c3/d4/e5` is in the claim's scenario class — the
static child `s` matches the first segment syntactically, no terminal
handler lies along that branch, and the parameter sibling `:b` leads to
the terminal wildcard route (chain `[8]`) — and the winning chain `[8]`
is indeed returned; yet the returned `Params` are not exactly the
winning branch's captures `[{b,s}, {g,c3}, {h,d4}, {w,e5}]`: the capture
`{c2, b2}` made along the abandoned `/:b/:c2` attempt survives into the
result, and the winning branch's capture `{g, c3}` is missing.  Only
membership facts are asserted, on which the embedding's truncation
rollback and the source's re-slice agree at this input (the full
accumulator value differs between the two in this rollback corner). -/
theorem captures_cex :
    ∃ ps, (((((NewNodeTree.addRoute "/s/k/" [1]).1.addRoute
      "/:b/b2/:g/:h/:i/junk" [9]).1.addRoute
      "/:b/b2/:g/:h/*w" [8]).1.addRoute
      "/:b/:c2/junk2" [7]).1).FindFuel 100 "/s/b2/c3/d4/e5" =
        some ([8], ps) ∧
      (⟨"c2", "b2"⟩ : Param) ∈ ps ∧ ¬ (⟨"g", "c3"⟩ : Param) ∈ ps :=
  ⟨[⟨"b", "s"⟩, ⟨"c2", "b2"⟩, ⟨"w", "e5"⟩], by decide⟩

/-- C5: the registration walk's matching test accepts an existing
Parameter child for any new `:`-segment, whatever either name is (first
conjunct, over every child and segment); consequently registering
`/users/:id` and then `/users/:userId` descends into the same node and
raises `DuplicateRoute`, leaving the tree unchanged (second and third
conjuncts). -/
theorem parameter_child_any_name :
    (∀ (child : Node) (segment : String),
      child.nodeType = NodeType.Parameter → segment.front = ':' →
      childMatch segment child = true) ∧
    (NewNodeTree.addRoute "/users/:id" [1]).2 = none ∧
    NodeTree.addRoute (NewNodeTree.addRoute "/users/:id" [1]).1
        "/users/:userId" [2] =
      ((NewNodeTree.addRoute "/users/:id" [1]).1,
        some RouteError.DuplicateRoute) := by
  refine ⟨?_, rfl, rfl⟩
  intro child segment hp hf
  simp [childMatch, hp, hf]

/-- C5 witness: the matching test at the `:id` node and segment
`:userId`. -/
theorem parameter_child_any_name_witness :
    childMatch ":userId" (Node.mk ":id" NodeType.Parameter [1] []) = true :=
  parameter_child_any_name.1 (Node.mk ":id" NodeType.Parameter [1] [])
    ":userId" rfl rfl

/-- The routing loop of `handleHttpRequest` on a matching head tree whose
`Find` yields a non-`nil` chain: the request is routed there. -/
theorem dispatchFuel_head_hit {f : Nat} {t : NodeTree} {ts : List NodeTree}
    {method path : String} {H : HandlerChain} {ps : Params}
    (hm : t.Method = method) (hfind : t.FindFuel f path = some (H, ps))
    (hne : H ≠ []) :
    dispatchFuel f (t :: ts) method path = some (.routed H ps) := by
  simp only [dispatchFuel]
  rw [if_pos hm, hfind]
  simp [hne]

/-- The routing loop skips a tree registered for another method. -/
theorem dispatchFuel_head_skip {f : Nat} {t : NodeTree} {ts : List NodeTree}
    {method path : String} (hm : ¬ t.Method = method) :
    dispatchFuel f (t :: ts) method path = dispatchFuel f ts method path := by
  simp only [dispatchFuel]
  rw [if_neg hm]

/-- C8: registering under one method touches no other method's tree
(first conjunct: for every registry, every registration, and every other
method, `get` is unchanged), and dispatching is per-method: with
`/api/resource` registered under GET with `H1` and under POST with `H2`,
a GET request is routed to `H1` and a POST request to `H2`. -/
theorem method_trees_isolated :
    (∀ (trees : List NodeTree) (method path : String)
      (handlers : HandlerChain) (m' : String), m' ≠ method →
      treesGet (engineAddRoute trees method path handlers).1 m' =
        treesGet trees m') ∧
    (∀ H1 H2 : HandlerChain, H1 ≠ [] → H2 ≠ [] →
      ∃ F, ∀ f, F ≤ f →
        dispatchFuel f
          (engineAddRoute (engineAddRoute [] "GET" "/api/resource" H1).1
            "POST" "/api/resource" H2).1 "GET" "/api/resource" =
          some (.routed H1 []) ∧
        dispatchFuel f
          (engineAddRoute (engineAddRoute [] "GET" "/api/resource" H1).1
            "POST" "/api/resource" H2).1 "POST" "/api/resource" =
          some (.routed H2 [])) := by
  constructor
  · intro trees method path handlers m' hm
    induction trees with
    | nil =>
      simp only [engineAddRoute, treesGet]
      rw [if_neg (fun h : method = m' => hm h.symm)]
    | cons t ts ih =>
      by_cases ht : t.Method = method
      · simp only [engineAddRoute, if_pos ht, treesGet]
        rw [if_neg (fun h : t.Method = m' => hm (h.symm.trans ht)),
          if_neg (fun h : t.Method = m' => hm (h.symm.trans ht))]
      · simp only [engineAddRoute, if_neg ht, treesGet]
        by_cases ht' : t.Method = m'
        · rw [if_pos ht', if_pos ht']
        · rw [if_neg ht', if_neg ht', ih]
  · intro H1 H2 h1 h2
    have hg : ∃ F, ∀ f, F ≤ f →
        NodeTree.FindFuel
          { Root := Node.mk "/" NodeType.Static []
              [Node.mk "api" NodeType.Static []
                [Node.mk "resource" NodeType.Static H1 []]],
            Method := "GET" } f "/api/resource" = some (H1, []) :=
      FindFuel_of_computes
        (Computes.atStep (by decide) (by decide)
          (Computes.sHit ⟨rfl, rfl⟩
            (Computes.atStep (by decide) (by decide)
              (Computes.sHit ⟨rfl, rfl⟩
                (Computes.atEnd (by decide) (List.length_pos.mpr h1))
                h1))
            h1))
    have hp : ∃ F, ∀ f, F ≤ f →
        NodeTree.FindFuel
          { Root := Node.mk "/" NodeType.Static []
              [Node.mk "api" NodeType.Static []
                [Node.mk "resource" NodeType.Static H2 []]],
            Method := "POST" } f "/api/resource" = some (H2, []) :=
      FindFuel_of_computes
        (Computes.atStep (by decide) (by decide)
          (Computes.sHit ⟨rfl, rfl⟩
            (Computes.atStep (by decide) (by decide)
              (Computes.sHit ⟨rfl, rfl⟩
                (Computes.atEnd (by decide) (List.length_pos.mpr h2))
                h2))
            h2))
    obtain ⟨F1, hg⟩ := hg
    obtain ⟨F2, hp⟩ := hp
    refine ⟨max F1 F2, fun f hf => ⟨?_, ?_⟩⟩
    · exact dispatchFuel_head_hit rfl (hg f (le_trans (le_max_left _ _) hf)) h1
    · exact (dispatchFuel_head_skip
          (by decide : ¬ ("GET" : String) = "POST")).trans
        (dispatchFuel_head_hit rfl (hp f (le_trans (le_max_right _ _) hf)) h2)

/-- C8 witness: the frame property at a concrete registry and the
dispatch instance at `H1 = [1]`, `H2 = [2, 3]`. -/
theorem method_trees_isolated_witness :
    (("POST" : String) ≠ "GET" ∧
      treesGet (engineAddRoute [] "GET" "/x" [1]).1 "POST" =
        treesGet [] "POST") ∧
    ∃ F, ∀ f, F ≤ f →
      dispatchFuel f
        (engineAddRoute (engineAddRoute [] "GET" "/api/resource" [1]).1
          "POST" "/api/resource" [2, 3]).1 "GET" "/api/resource" =
        some (.routed [1] []) ∧
      dispatchFuel f
        (engineAddRoute (engineAddRoute [] "GET" "/api/resource" [1]).1
          "POST" "/api/resource" [2, 3]).1 "POST" "/api/resource" =
        some (.routed [2, 3] []) :=
  ⟨⟨by decide, method_trees_isolated.1 [] "GET" "/x" [1] "POST" (by decide)⟩,
    method_trees_isolated.2 [1] [2, 3] (by decide) (by decide)⟩

/-- C1 as stated is false: (a) registering the path `/a/` with chain
`[5]` succeeds, yet `Find` on that exact path returns the empty chain,
not `[5]` (the trailing empty segment is skipped by registration, so no
node receives the handlers); (b) on a tree already holding `/a/123/b`,
registering `/a/:x/b` succeeds, yet `Find("/a/123/b")` — the registered
path with `123` substituted for `:x` — returns the previously registered
chain `[7]` with no captures, not the new chain `[5]`. -/
theorem roundtrip_cex :
    ((NewNodeTree.addRoute "/a/" [5]).2 = none ∧
      (NewNodeTree.addRoute "/a/" [5]).1.FindFuel 30 "/a/" = some ([], []) ∧
      (([] : HandlerChain) ≠ [5])) ∧
    (((NewNodeTree.addRoute "/a/123/b" [7]).1.addRoute "/a/:x/b" [5]).2 =
        none ∧
      ((NewNodeTree.addRoute "/a/123/b" [7]).1.addRoute "/a/:x/b"
          [5]).1.FindFuel 40 "/a/123/b" = some ([7], []) ∧
      (([7] : HandlerChain) ≠ [5])) := by
  decide

/-- C4's "if and only if" fails in the reverse direction: after `/users`
is registered, registering `/users/` reaches the `users` node — which
carries the non-empty chain `[1]` — without creating any node (the
returned tree is equal to the input tree), yet no error is raised. -/
theorem duplicate_iff_cex :
    (NewNodeTree.addRoute "/users" [1]).2 = none ∧
    NodeTree.addRoute (NewNodeTree.addRoute "/users" [1]).1 "/users/" [2] =
      ((NewNodeTree.addRoute "/users" [1]).1, none) ∧
    walkNoCreate (NewNodeTree.addRoute "/users" [1]).1.Root
        (splitPath "/users/") = some (Node.mk "users" NodeType.Static [1] []) ∧
    (Node.mk "users" NodeType.Static [1] []).Handlers ≠ [] :=
  ⟨rfl, rfl, rfl, by decide⟩

/-- Setting a position of a list to the element already there changes
nothing. -/
theorem set_getD_self {α : Type} (l : List α) (i : Nat) (d : α)
    (h : i < l.length) : l.set i (l.getD i d) = l := by
  induction l generalizing i with
  | nil => simp at h
  | cons a l ih =>
    cases i with
    | zero => simp [List.getD]
    | succ n =>
      simp only [List.getD_cons_succ, List.set_cons_succ]
      rw [ih n (by simpa using h)]

/-- Once a node has been created (`pathExists` is false) the duplicate
check can no longer fire: the rest of the walk reports no error. -/
theorem addRouteAux_false_no_error :
    ∀ (segs : List String) (n : Node) (handlers : HandlerChain),
    (addRouteAux n segs false handlers).2 = none := by
  intro segs
  induction segs with
  | nil => intro n handlers; rfl
  | cons seg rest ih =>
    intro n handlers
    simp only [addRouteAux]
    split
    · exact ih n handlers
    · split
      · split
        · simp
        · exact ih _ handlers
      · split
        · rfl
        · exact ih _ handlers

/-- The walk's only error is the duplicate panic. -/
theorem addRouteAux_error_dup :
    ∀ (segs : List String) (n : Node) (pE : Bool) (handlers : HandlerChain)
      (e : RouteError), (addRouteAux n segs pE handlers).2 = some e →
    e = RouteError.DuplicateRoute := by
  intro segs
  induction segs with
  | nil => intro n pE handlers e h; exact absurd h (by simp [addRouteAux])
  | cons seg rest ih =>
    intro n pE handlers e h
    simp only [addRouteAux] at h
    split at h
    · exact ih n pE handlers e h
    · split at h
      · split at h
        · split at h
          · exact (Option.some.inj h).symm
          · simp at h
        · exact ih _ pE handlers e h
      · split at h
        · simp at h
        · exact ih _ false handlers e h

/-- A walk that panics has mutated nothing: the returned tree is the
input tree. -/
theorem addRouteAux_error_unchanged :
    ∀ (segs : List String) (n : Node) (pE : Bool) (handlers : HandlerChain)
      (e : RouteError), (addRouteAux n segs pE handlers).2 = some e →
    (addRouteAux n segs pE handlers).1 = n := by
  intro segs
  induction segs with
  | nil => intro n pE handlers e h; exact absurd h (by simp [addRouteAux])
  | cons seg rest ih =>
    intro n pE handlers e h
    by_cases hseg : seg = ""
    · simp only [addRouteAux, if_pos hseg] at h ⊢
      exact ih n pE handlers e h
    · cases hidx : n.Children.findIdx? (childMatch seg) with
      | some i =>
        have hi : i < n.Children.length :=
          (List.findIdx?_eq_some_iff_findIdx_eq.mp hidx).1
        by_cases hrest : rest = []
        · subst hrest
          simp only [addRouteAux, if_neg hseg, hidx,
            if_pos (Eq.refl ([] : List String))] at h ⊢
          by_cases hc : 0 <
              ((n.Children.getD i
                (Node.mk "" NodeType.Static [] [])).Handlers.length) ∧
              pE = true
          · rw [if_pos hc]
            simp
          · rw [if_neg hc] at h
            exact absurd h (by simp)
        · simp only [addRouteAux, if_neg hseg, hidx, if_neg hrest] at h ⊢
          rw [ih _ pE handlers e h]
          cases n with
          | mk p t hnd cs =>
            simp only [Node.setChild, Node.Children] at hi ⊢
            rw [set_getD_self cs i _ hi]
      | none =>
        by_cases hrest : rest = []
        · subst hrest
          simp only [addRouteAux, if_neg hseg, hidx, if_pos rfl] at h
          exact absurd h (by simp)
        · simp only [addRouteAux, if_neg hseg, hidx, if_neg hrest] at h
          rw [addRouteAux_false_no_error rest _ handlers] at h
          exact absurd h (by simp)

/-- The duplicate panic fires exactly when no node has been created so
far (`pE`), the final segment is non-empty, and the read-only walk
reaches an existing node carrying handlers. -/
theorem addRouteAux_dup_iff :
    ∀ (segs : List String) (n : Node) (pE : Bool) (handlers : HandlerChain),
    (addRouteAux n segs pE handlers).2 = some RouteError.DuplicateRoute ↔
      pE = true ∧ (∃ s, segs.getLast? = some s ∧ s ≠ "") ∧
      ∃ e, walkNoCreate n segs = some e ∧ e.Handlers ≠ [] := by
  intro segs
  induction segs with
  | nil =>
    intro n pE handlers
    simp [addRouteAux]
  | cons seg rest ih =>
    intro n pE handlers
    by_cases hseg : seg = ""
    · subst hseg
      cases rest with
      | nil => simp [addRouteAux, walkNoCreate]
      | cons r rs =>
        rw [show ("" :: r :: rs).getLast? = (r :: rs).getLast? from
          List.getLast?_cons_cons]
        rw [show addRouteAux n ("" :: r :: rs) pE handlers =
          addRouteAux n (r :: rs) pE handlers from by simp [addRouteAux]]
        rw [show walkNoCreate n ("" :: r :: rs) = walkNoCreate n (r :: rs) from
          by simp [walkNoCreate]]
        exact ih n pE handlers
    · cases hidx : n.Children.findIdx? (childMatch seg) with
      | some i =>
        cases rest with
        | nil =>
          simp only [addRouteAux, if_neg hseg, hidx, if_true]
          constructor
          · intro h
            split at h
            · next hc =>
              exact ⟨hc.2, ⟨seg, rfl, hseg⟩,
                n.Children.getD i (Node.mk "" NodeType.Static [] []),
                by simp [walkNoCreate, if_neg hseg, hidx],
                List.length_pos.mp hc.1⟩
            · simp at h
          · rintro ⟨hpE, -, e, he, hne⟩
            have he' : n.Children.getD i (Node.mk "" NodeType.Static [] [])
                = e := by
              simpa [walkNoCreate, if_neg hseg, hidx] using he
            rw [if_pos ⟨by rw [he']; exact List.length_pos.mpr hne, hpE⟩]
        | cons r rs =>
          rw [show (seg :: r :: rs).getLast? = (r :: rs).getLast? from
            List.getLast?_cons_cons]
          rw [show (addRouteAux n (seg :: r :: rs) pE handlers).2 =
            (addRouteAux
              (n.Children.getD i (Node.mk "" NodeType.Static [] []))
              (r :: rs) pE handlers).2 from by
            simp [addRouteAux, if_neg hseg, hidx]]
          rw [show walkNoCreate n (seg :: r :: rs) = walkNoCreate
            (n.Children.getD i (Node.mk "" NodeType.Static [] []))
            (r :: rs) from by simp [walkNoCreate, if_neg hseg, hidx]]
          exact ih _ pE handlers
      | none =>
        have hwalk : walkNoCreate n (seg :: rest) = none := by
          simp [walkNoCreate, if_neg hseg, hidx]
        rw [hwalk]
        cases rest with
        | nil =>
          simp only [addRouteAux, if_neg hseg, hidx, if_true]
          simp
        | cons r rs =>
          rw [show (addRouteAux n (seg :: r :: rs) pE handlers).2 =
            (addRouteAux (Node.mk seg (segNodeType seg) [] []) (r :: rs)
              false handlers).2 from by simp [addRouteAux, if_neg hseg, hidx]]
          rw [addRouteAux_false_no_error]
          simp

/-- C4 (amended): `addRoute` raises `DuplicateRoute` iff the path's final
segment is non-empty and the walk reaches — without creating any node —
a node that already carries a non-empty handler chain (first conjunct);
it raises `RootAlreadyRegistered` iff the path is `""` or `"/"` and the
root already carries handlers (second conjunct); and whenever either
error is raised, the failing call returns the tree unchanged (third
conjunct).  The original claim's unqualified "iff" fails for
trailing-slash paths, whose final empty segment skips the duplicate
check entirely. -/
theorem duplicate_detection (nt : NodeTree) (path : String)
    (H : HandlerChain) :
    ((nt.addRoute path H).2 = some RouteError.DuplicateRoute ↔
      (∃ s, (splitPath path).getLast? = some s ∧ s ≠ "") ∧
      ∃ e, walkNoCreate nt.Root (splitPath path) = some e ∧
        e.Handlers ≠ []) ∧
    ((nt.addRoute path H).2 = some RouteError.RootAlreadyRegistered ↔
      (path = "" ∨ path = "/") ∧ nt.Root.Handlers ≠ []) ∧
    (∀ e, (nt.addRoute path H).2 = some e →
      (nt.addRoute path H).1 = nt) := by
  refine ⟨?_, ?_, ?_⟩
  · cases haux : (addRouteAux nt.Root (splitPath path) true H).2 with
    | some e =>
      have hdup := addRouteAux_error_dup _ _ _ _ _ haux
      subst hdup
      have hiff := addRouteAux_dup_iff (splitPath path) nt.Root true H
      rw [haux] at hiff
      simp only [NodeTree.addRoute, haux]
      simpa using hiff
    | none =>
      have hiff := addRouteAux_dup_iff (splitPath path) nt.Root true H
      rw [haux] at hiff
      simp only [NodeTree.addRoute, haux]
      constructor
      · intro h
        by_cases hpath : path = "" ∨ path = "/"
        · rw [if_pos hpath] at h
          split at h <;> simp at h
        · rw [if_neg hpath] at h
          simp at h
      · intro hr
        exact absurd (hiff.mpr ⟨rfl, hr⟩) (by simp)
  · by_cases hpath : path = "" ∨ path = "/"
    · have hsp : splitPath path = [""] := by
        rcases hpath with h | h <;> subst h <;> rfl
      have heval : addRouteAux nt.Root (splitPath path) true H =
          (nt.Root, none) := by rw [hsp]; simp [addRouteAux]
      simp only [NodeTree.addRoute, heval, if_pos hpath]
      by_cases hroot : 0 < nt.Root.Handlers.length
      · rw [if_pos hroot]
        simp [hpath, List.length_pos.mp hroot]
      · rw [if_neg hroot]
        have : nt.Root.Handlers = [] := by
          cases hh : nt.Root.Handlers with
          | nil => rfl
          | cons a l => rw [hh] at hroot; simp at hroot
        simp [this]
    · simp only [NodeTree.addRoute]
      cases haux : (addRouteAux nt.Root (splitPath path) true H).2 with
      | some e =>
        have hdup := addRouteAux_error_dup _ _ _ _ _ haux
        subst hdup
        simp [hpath]
      | none =>
        rw [if_neg hpath]
        simp [hpath]
  · intro e he
    cases haux : (addRouteAux nt.Root (splitPath path) true H).2 with
    | some e' =>
      have h1 := addRouteAux_error_unchanged _ _ _ _ _ haux
      simp only [NodeTree.addRoute, haux]
      rw [h1]
    | none =>
      simp only [NodeTree.addRoute, haux] at he ⊢
      by_cases hpath : path = "" ∨ path = "/"
      · have hsp : splitPath path = [""] := by
          rcases hpath with h | h <;> subst h <;> rfl
        have heval : addRouteAux nt.Root (splitPath path) true H =
            (nt.Root, none) := by rw [hsp]; simp [addRouteAux]
        rw [if_pos hpath] at he ⊢
        by_cases hroot : 0 < (addRouteAux nt.Root (splitPath path) true
            H).1.Handlers.length
        · rw [if_pos hroot]
          rw [heval]
        · rw [if_neg hroot] at he
          simp at he
      · rw [if_neg hpath] at he
        simp at he

/-- C4 witness: registering `/users` twice — the second call raises
`DuplicateRoute` by the iff (the walk finds the `users` node, carrying
`[1]`, with a non-empty final segment), and the tree is unchanged. -/
theorem duplicate_detection_witness :
    (NodeTree.addRoute (NewNodeTree.addRoute "/users" [1]).1 "/users"
        [2]).2 = some RouteError.DuplicateRoute ∧
    (NodeTree.addRoute (NewNodeTree.addRoute "/users" [1]).1 "/users"
        [2]).1 = (NewNodeTree.addRoute "/users" [1]).1 ∧
    ((NewNodeTree.addRoute "/" [3]).1.addRoute "/" [4]).2 =
      some RouteError.RootAlreadyRegistered :=
  ⟨(duplicate_detection (NewNodeTree.addRoute "/users" [1]).1 "/users"
      [2]).1.mpr
    ⟨⟨"users", rfl, by decide⟩,
      Node.mk "users" NodeType.Static [1] [], rfl, by decide⟩,
    (duplicate_detection (NewNodeTree.addRoute "/users" [1]).1 "/users"
        [2]).2.2 RouteError.DuplicateRoute
      ((duplicate_detection (NewNodeTree.addRoute "/users" [1]).1 "/users"
          [2]).1.mpr
        ⟨⟨"users", rfl, by decide⟩,
          Node.mk "users" NodeType.Static [1] [], rfl, by decide⟩),
    (duplicate_detection (NewNodeTree.addRoute "/" [3]).1 "/" [4]).2.1.mpr
      ⟨Or.inr rfl, by decide⟩⟩

/-- `getLast?` commutes with `map`. -/
theorem getLast?_map {α β : Type} (f : α → β) :
    ∀ l : List α, (l.map f).getLast? = l.getLast?.map f := by
  intro l
  induction l with
  | nil => rfl
  | cons a l ih =>
    cases l with
    | nil => rfl
    | cons b l' =>
      rw [List.map_cons, List.map_cons, List.getLast?_cons_cons,
        List.getLast?_cons_cons, ← List.map_cons, ih]

/-- Splitting a character list that ends in the separator: at least two
pieces, and the last piece is empty. -/
theorem splitOnChar_trailing (sep : Char) :
    ∀ cs : List Char, cs.getLast? = some sep →
    2 ≤ (splitOnChar sep cs).length ∧
      (splitOnChar sep cs).getLast? = some [] := by
  intro cs
  induction cs with
  | nil => intro h; simp at h
  | cons c cs ih =>
    intro h
    cases cs with
    | nil =>
      simp at h
      subst h
      simp [splitOnChar]
    | cons c2 rest =>
      rw [List.getLast?_cons_cons] at h
      obtain ⟨hlen, hlast⟩ := ih h
      cases heq : splitOnChar sep (c2 :: rest) with
      | nil => rw [heq] at hlen; simp at hlen
      | cons s ss =>
        rw [heq] at hlen hlast
        cases ss with
        | nil => simp at hlen
        | cons s2 ss' =>
          rw [List.getLast?_cons_cons] at hlast
          by_cases hc : c = sep
          · rw [show splitOnChar sep (c :: c2 :: rest) = [] :: s :: s2 :: ss'
              from by
                show (match splitOnChar sep (c2 :: rest) with
                  | [] => [[]]
                  | s :: ss =>
                    if c = sep then [] :: s :: ss else (c :: s) :: ss) = _
                rw [heq]
                exact if_pos hc]
            refine ⟨by simp, ?_⟩
            rw [List.getLast?_cons_cons, List.getLast?_cons_cons]
            exact hlast
          · rw [show splitOnChar sep (c :: c2 :: rest) = (c :: s) :: s2 :: ss'
              from by
                show (match splitOnChar sep (c2 :: rest) with
                  | [] => [[]]
                  | s :: ss =>
                    if c = sep then [] :: s :: ss else (c :: s) :: ss) = _
                rw [heq]
                exact if_neg hc]
            refine ⟨by simp, ?_⟩
            rw [List.getLast?_cons_cons]
            exact hlast

/-- A path that ends in `/` (and is not `/` itself) splits into segments
whose last segment is empty. -/
theorem splitPath_trailing (path : String)
    (hlast : path.toList.getLast? = some '/') (hne : path ≠ "/") :
    (splitPath path).getLast? = some "" := by
  have hmk : ∀ l : List Char, l.getLast? = some '/' →
      ((splitOnChar '/' l).map String.mk).getLast? = some "" := by
    intro l hl
    rw [getLast?_map, (splitOnChar_trailing '/' l hl).2]
    rfl
  cases hl : path.toList with
  | nil => rw [hl] at hlast; simp at hlast
  | cons c t =>
    by_cases hc : c = '/'
    · subst hc
      cases t with
      | nil =>
        exact absurd (by
          cases path with
          | mk data =>
            simp only [String.toList] at hl
            rw [show data = ['/'] from hl]) hne
      | cons c2 t' =>
        rw [hl] at hlast
        rw [List.getLast?_cons_cons] at hlast
        simp only [splitPath, hl, List.head?_cons, if_pos rfl, List.tail_cons]
        rw [if_neg (by simp)]
        exact hmk _ hlast
    · rw [hl] at hlast
      simp only [splitPath, hl, List.head?_cons,
        if_neg (fun h : some c = some '/' => hc (Option.some.inj h))]
      rw [if_neg (by simp)]
      exact hmk _ hlast

/-- A walk whose final segment is empty is `extendPath`: it descends and
creates exactly as usual, but the terminal assignment never runs and no
error can be raised. -/
theorem addRouteAux_trailing :
    ∀ segs : List String, segs.getLast? = some "" →
    ∀ (n : Node) (pE : Bool) (handlers : HandlerChain),
    addRouteAux n segs pE handlers = (extendPath n segs, none) := by
  intro segs
  induction segs with
  | nil => intro h; simp at h
  | cons seg rest ih =>
    intro hlast n pE handlers
    by_cases hseg : seg = ""
    · subst hseg
      cases rest with
      | nil => simp [addRouteAux, extendPath]
      | cons r rs =>
        rw [List.getLast?_cons_cons] at hlast
        rw [show addRouteAux n ("" :: r :: rs) pE handlers =
          addRouteAux n (r :: rs) pE handlers from by simp [addRouteAux]]
        rw [show extendPath n ("" :: r :: rs) = extendPath n (r :: rs) from
          by simp [extendPath]]
        exact ih hlast n pE handlers
    · have hrest : rest ≠ [] := by
        rintro rfl
        simp at hlast
        exact hseg hlast
      have hlast' : rest.getLast? = some "" := by
        cases rest with
        | nil => exact absurd rfl hrest
        | cons r rs => rw [List.getLast?_cons_cons] at hlast; exact hlast
      cases hidx : n.Children.findIdx? (childMatch seg) with
      | some i =>
        simp only [addRouteAux, extendPath, if_neg hseg, hidx,
          if_neg hrest]
        rw [ih hlast' _ pE handlers]
      | none =>
        simp only [addRouteAux, extendPath, if_neg hseg, hidx,
          if_neg hrest]
        rw [ih hlast' _ false handlers]

/-- C10: a registration path ending in `/` (other than `/` itself)
assigns its handler chain to no node: the call succeeds and the
resulting tree is `extendPath` of the old one — a function that never
writes a `Handlers` field (first conjunct, for every tree and chain);
consequently, registering `/a/` into a fresh tree and finding `/a/`
yields the empty chain. -/
theorem trailing_slash_assigns_nothing :
    (∀ (nt : NodeTree) (path : String) (H : HandlerChain),
      path.toList.getLast? = some '/' → path ≠ "/" →
      nt.addRoute path H =
        ({ nt with Root := extendPath nt.Root (splitPath path) }, none)) ∧
    ∃ F, ∀ f, F ≤ f →
      (NewNodeTree.addRoute "/a/" [5]).1.FindFuel f "/a/" =
        some ([], []) := by
  constructor
  · intro nt path H hlast hne
    have hsegs := splitPath_trailing path hlast hne
    have haux := addRouteAux_trailing (splitPath path) hsegs nt.Root true H
    have hpath1 : ¬ (path = "" ∨ path = "/") := by
      rintro (rfl | rfl)
      · simp at hlast
      · exact hne rfl
    simp only [NodeTree.addRoute, haux]
    rw [if_neg hpath1]
  · exact FindFuel_of_computes
      (Computes.atStep (by decide) (by decide)
        (Computes.sCont (by decide)
          (Computes.atTrailBt (by decide) (by decide) (by decide)
            (Computes.btNil rfl))
          (Computes.sNil
            (Computes.pMiss (by decide)
              (Computes.pNil
                (Computes.wMiss (by decide)
                  (Computes.wNil (Computes.btNil rfl))))))))

/-- C10 witness: the general statement applied to `/a/` on a fresh
tree. -/
theorem trailing_slash_assigns_nothing_witness :
    NewNodeTree.addRoute "/a/" [5] =
      ({ NewNodeTree with
          Root := extendPath NewNodeTree.Root (splitPath "/a/") }, none) :=
  trailing_slash_assigns_nothing.1 NewNodeTree "/a/" [5] rfl (by decide)

/-- `getD` at the boundary of an append reads the first element of the
right part. -/
theorem getD_append_self {α : Type} :
    ∀ (l : List α) (x : α) (l2 : List α) (d : α),
    (l ++ x :: l2).getD l.length d = x := by
  intro l
  induction l with
  | nil => intro x l2 d; rfl
  | cons a l ih => intro x l2 d; exact ih x l2 d

/-- Substitutable paths have no empty segment (a parameter segment
starts with `:`, hence is non-empty). -/
theorem Subst.seg_ne_empty :
    ∀ {segs vals : List String}, Subst segs vals →
    ∀ s ∈ segs, s ≠ "" := by
  intro segs vals h
  induction h with
  | nil => intro s hs; simp at hs
  | static s' h1 h2 h3 htail ih =>
    intro s hs
    rcases List.mem_cons.mp hs with rfl | hs
    · exact h1
    · exact ih s hs
  | param s' v h1 h2 htail ih =>
    intro s hs
    rcases List.mem_cons.mp hs with rfl | hs
    · intro heq
      rw [heq] at h1
      exact absurd h1 (by decide)
    · exact ih s hs

/-- Registering a path below a node with no children builds exactly the
spine `chainNodes`: every segment creates a fresh node and the handlers
land on the last one; no error is possible. -/
theorem addRouteAux_fresh :
    ∀ (segs : List String) (handlers : HandlerChain) (p : String)
      (t : NodeType) (h0 : HandlerChain) (pE : Bool),
    (∀ s ∈ segs, s ≠ "") →
    addRouteAux (Node.mk p t h0 []) segs pE handlers =
      (Node.mk p t h0 (chainNodes segs handlers), none) := by
  intro segs
  induction segs with
  | nil => intro handlers p t h0 pE hne; rfl
  | cons seg rest ih =>
    intro handlers p t h0 pE hne
    have hseg : seg ≠ "" := hne seg (List.mem_cons_self _ _)
    by_cases hrest : rest = []
    · subst hrest
      simp [addRouteAux, hseg, chainNodes, Node.addChild, Node.withHandlers,
        Node.Children, List.findIdx?]
    · simp only [addRouteAux, if_neg hseg, Node.Children, List.findIdx?,
        if_neg hrest, chainNodes]
      rw [ih handlers seg (segNodeType seg) [] false
        (fun s hs => hne s (List.mem_cons_of_mem _ hs))]
      simp [Node.addChild, if_neg hrest]

/-- Matching a substituted request path against the spine of its
registered path: the search walks straight down, captures exactly the
parameter values, and returns the registered chain. -/
theorem find_chain :
    ∀ {segsR valsR : List String}, Subst segsR valsR →
    ∀ (H : HandlerChain), H ≠ [] →
    ∀ (valsDone : List String) (params : Params)
      (skipped : List SkippedNode) (p : String) (t : NodeType)
      (hnd : HandlerChain), (segsR = [] → hnd = H) →
    ∃ sk', Computes (valsDone ++ valsR)
      (.atNode (Node.mk p t hnd (chainNodes segsR H)) params
        valsDone.length skipped)
      (H, params ++ capturedParams segsR valsR, sk') := by
  intro segsR valsR hsub
  induction hsub with
  | nil =>
    intro H hH valsDone params skipped p t hnd hterm
    refine ⟨skipped, ?_⟩
    have h1 : hnd = H := hterm rfl
    subst h1
    simp only [capturedParams, List.append_nil]
    exact Computes.atEnd (le_refl _) (List.length_pos.mpr hH)
  | @static s ss vs h1 h2 h3 htail ih =>
    intro H hH valsDone params skipped p t hnd hterm
    have htype : segNodeType s = NodeType.Static := by
      simp [segNodeType, beq_iff_eq, h2, h3]
    have hgetD : (valsDone ++ s :: vs).getD valsDone.length "" = s :=
      getD_append_self valsDone s vs ""
    rw [show capturedParams (s :: ss) (s :: vs) = capturedParams ss vs from
      by simp [capturedParams, h2]]
    obtain ⟨sk', hcomp⟩ := ih H hH (valsDone ++ [s]) params
      (skipped ++ paramWildRecords
        (Node.mk p t hnd (chainNodes (s :: ss) H)).Children
        valsDone.length params.length)
      s (segNodeType s) (if ss = [] then H else [])
      (fun hss => by rw [if_pos hss])
    rw [show (valsDone ++ [s]) ++ vs = valsDone ++ s :: vs from by simp,
      show (valsDone ++ [s]).length = valsDone.length + 1 from by simp]
      at hcomp
    refine ⟨sk', ?_⟩
    apply Computes.atStep
    · simp
    · intro hc
      exact h1 (hgetD ▸ hc.1)
    · exact Computes.sHit ⟨htype, hgetD.symm⟩ hcomp hH
  | @param s v ss vs h1 h2 htail ih =>
    intro H hH valsDone params skipped p t hnd hterm
    have htype : segNodeType s = NodeType.Parameter := by
      simp [segNodeType, beq_iff_eq, h1]
    have hgetD : (valsDone ++ v :: vs).getD valsDone.length "" = v :=
      getD_append_self valsDone v vs ""
    rw [show capturedParams (s :: ss) (v :: vs) =
        ⟨s.drop 1, v⟩ :: capturedParams ss vs from by
      simp [capturedParams, h1]]
    rw [show params ++ ⟨s.drop 1, v⟩ :: capturedParams ss vs =
        (params ++ [⟨s.drop 1, v⟩]) ++ capturedParams ss vs from by simp]
    obtain ⟨sk', hcomp⟩ := ih H hH (valsDone ++ [v])
      (params ++ [⟨s.drop 1, v⟩]) skipped s (segNodeType s)
      (if ss = [] then H else []) (fun hss => by rw [if_pos hss])
    rw [show (valsDone ++ [v]) ++ vs = valsDone ++ v :: vs from by simp,
      show (valsDone ++ [v]).length = valsDone.length + 1 from by simp]
      at hcomp
    refine ⟨sk', ?_⟩
    apply Computes.atStep
    · simp
    · intro hc
      exact h2 (hgetD ▸ hc.1)
    · refine Computes.sMiss ?_ (Computes.sNil (Computes.pHit htype ?_ hH))
      · intro hc
        exact absurd hc.1 (by simp [Node.nodeType, htype])
      · rw [hgetD]
        exact hcomp

/-- C1 (amended): for a path whose segments are all non-empty and none a
wildcard, registered with a non-empty chain `H` into a fresh tree, the
registration succeeds and `Find` on any request path obtained by
substituting non-empty concrete values for the `:name` segments returns
`H` together with exactly the `(name, value)` captures in path order. -/
theorem registered_path_roundtrip (path reqPath : String)
    (H : HandlerChain) (hH : H ≠ []) (segs vals : List String)
    (hsp : splitPath path = segs) (hrq : splitPath reqPath = vals)
    (hsub : Subst segs vals) (hne : segs ≠ []) :
    (NewNodeTree.addRoute path H).2 = none ∧
    ∃ F, ∀ f, F ≤ f →
      (NewNodeTree.addRoute path H).1.FindFuel f reqPath =
        some (H, capturedParams segs vals) := by
  have hnonempty : ∀ s ∈ segs, s ≠ "" := hsub.seg_ne_empty
  have hpath1 : ¬ (path = "" ∨ path = "/") := by
    rintro (rfl | rfl)
    · have h0 : segs = [""] := by rw [← hsp]; rfl
      exact hnonempty "" (by rw [h0]; exact List.mem_singleton.mpr rfl) rfl
    · have h0 : segs = [""] := by rw [← hsp]; rfl
      exact hnonempty "" (by rw [h0]; exact List.mem_singleton.mpr rfl) rfl
  have haux := addRouteAux_fresh segs H "/" NodeType.Root [] true hnonempty
  have htree : NewNodeTree.addRoute path H =
      (NodeTree.mk (Node.mk "/" NodeType.Root [] (chainNodes segs H)) "",
        none) := by
    simp only [NodeTree.addRoute, NewNodeTree, hsp, haux]
    rw [if_neg hpath1]
  refine ⟨by rw [htree], ?_⟩
  obtain ⟨sk', hfind⟩ :=
    find_chain hsub H hH [] [] [] "/" NodeType.Root []
      (fun h => absurd h hne)
  rw [htree]
  apply FindFuel_of_computes
  rw [hrq]
  exact hfind

/-- C1 witness: `/a/:x/b` registered with `[1]` into a fresh tree;
`Find("/a/123/b")` returns `[1]` with `Params = [{x, "123"}]`. -/
theorem registered_path_roundtrip_witness :
    (NewNodeTree.addRoute "/a/:x/b" [1]).2 = none ∧
    ∃ F, ∀ f, F ≤ f →
      (NewNodeTree.addRoute "/a/:x/b" [1]).1.FindFuel f "/a/123/b" =
        some ([1], [⟨"x", "123"⟩]) :=
  registered_path_roundtrip "/a/:x/b" "/a/123/b" [1] (by decide)
    ["a", ":x", "b"] ["a", "123", "b"] (by decide) (by decide)
    (Subst.static "a" (by decide) (by decide) (by decide)
      (Subst.param ":x" "123" (by decide) (by decide)
        (Subst.static "b" (by decide) (by decide) (by decide) Subst.nil)))
    (by decide)

/-! ### Termination of the search on `addRoute`-built trees (C9) -/

/-- Unfolding of `Node.size` through `attach`. -/
theorem Node.size_mk (p : String) (t : NodeType) (h : HandlerChain)
    (cs : List Node) :
    (Node.mk p t h cs).size = 1 + (cs.map Node.size).sum := by
  rw [Node.size]
  congr 1
  congr 1
  rw [show (fun c : {x // x ∈ cs} => Node.size c.1) =
    Node.size ∘ (fun c : {x // x ∈ cs} => c.1) from rfl]
  rw [← List.map_map, List.attach_map_subtype_val]

/-- Every subtree has at least one node. -/
theorem Node.size_pos (n : Node) : 1 ≤ n.size := by
  cases n with
  | mk p t h cs => rw [Node.size_mk]; omega

/-- A child's size is at most the sum of the children's sizes. -/
theorem size_child_le {c : Node} {cs : List Node} (h : c ∈ cs) :
    c.size ≤ (cs.map Node.size).sum :=
  List.single_le_sum (fun a _ => Nat.zero_le a) _ (List.mem_map_of_mem _ h)

/-- Sums of powers of three are bounded by the power of the sum, for
exponents at least one. -/
theorem sum_pow3_le :
    ∀ l : List Nat, (∀ a ∈ l, 1 ≤ a) → (l.map (3 ^ ·)).sum ≤ 3 ^ l.sum := by
  intro l
  induction l with
  | nil => intro _; simp
  | cons a rest ih =>
    intro hall
    cases rest with
    | nil => simp
    | cons b rest' =>
      have h1 : 1 ≤ a := hall a (List.mem_cons_self _ _)
      have h2 : 1 ≤ (b :: rest').sum := by
        have := hall b (List.mem_cons_of_mem _ (List.mem_cons_self _ _))
        have : b ≤ (b :: rest').sum :=
          List.single_le_sum (fun x _ => Nat.zero_le x) b
            (List.mem_cons_self _ _)
        omega
      have h3 := ih (fun x hx => hall x (List.mem_cons_of_mem _ hx))
      calc ((a :: b :: rest').map (3 ^ ·)).sum
          = 3 ^ a + ((b :: rest').map (3 ^ ·)).sum := by simp
        _ ≤ 3 ^ a + 3 ^ (b :: rest').sum := by omega
        _ ≤ 3 ^ a * 3 ^ (b :: rest').sum := by
            have ha : 3 ≤ 3 ^ a := by
              calc 3 = 3 ^ 1 := by norm_num
                _ ≤ 3 ^ a := Nat.pow_le_pow_right (by norm_num) h1
            have hb : 3 ≤ 3 ^ (b :: rest').sum := by
              calc 3 = 3 ^ 1 := by norm_num
                _ ≤ 3 ^ (b :: rest').sum :=
                  Nat.pow_le_pow_right (by norm_num) h2
            nlinarith
        _ = 3 ^ ((a :: b :: rest').sum) := by
            rw [← pow_add]
            simp

/-- The total weight of a node's children is at most `3 ^ (size - 1)`. -/
theorem childrenW_le (p : String) (t : NodeType) (h : HandlerChain)
    (cs : List Node) :
    (cs.map nodeW).sum ≤ 3 ^ ((Node.mk p t h cs).size - 1) := by
  have h1 : cs.map nodeW = (cs.map Node.size).map (3 ^ ·) := by
    rw [List.map_map]; rfl
  rw [h1, Node.size_mk]
  simpa using sum_pow3_le (cs.map Node.size)
    (by intro a ha
        obtain ⟨c, _, rfl⟩ := List.mem_map.mp ha
        exact c.size_pos)

/-- Weights add over stack concatenation. -/
theorem stackW_append (S P : List SkippedNode) :
    stackW (S ++ P) = stackW S + stackW P := by
  simp [stackW]

/-- The weight of the records pushed before a static descent is the
weight of the Parameter/Wildcard children. -/
theorem stackW_paramWildRecords (cs : List Node) (i pl : Nat) :
    stackW (paramWildRecords cs i pl) =
      ((cs.filter fun c =>
        c.nodeType == NodeType.Parameter ||
        c.nodeType == NodeType.Wildcard).map nodeW).sum := by
  simp [stackW, paramWildRecords, List.map_map]
  rfl

/-- A sum over a list splits into the part satisfying a test and the
rest. -/
theorem sum_filter_split (f : Node → Nat) (q : Node → Bool) :
    ∀ l : List Node,
    ((l.filter q).map f).sum + ((l.filter fun c => ! q c).map f).sum =
      (l.map f).sum := by
  intro l
  induction l with
  | nil => simp
  | cons c rest ih =>
    by_cases hc : q c
    · simp [List.filter_cons, hc]
      omega
    · simp [List.filter_cons, hc]
      omega

@[simp] theorem Node.Path_mk (p : String) (t : NodeType) (h : HandlerChain)
    (cs : List Node) : (Node.mk p t h cs).Path = p := rfl

@[simp] theorem Node.nodeType_mk (p : String) (t : NodeType)
    (h : HandlerChain) (cs : List Node) :
    (Node.mk p t h cs).nodeType = t := rfl

@[simp] theorem Node.Handlers_mk (p : String) (t : NodeType)
    (h : HandlerChain) (cs : List Node) :
    (Node.mk p t h cs).Handlers = h := rfl

@[simp] theorem Node.Children_mk (p : String) (t : NodeType)
    (h : HandlerChain) (cs : List Node) :
    (Node.mk p t h cs).Children = cs := rfl

@[simp] theorem Node.setChild_mk (p : String) (t : NodeType)
    (h : HandlerChain) (cs : List Node) (i : Nat) (x : Node) :
    (Node.mk p t h cs).setChild i x = Node.mk p t h (cs.set i x) := rfl

@[simp] theorem Node.addChild_mk (p : String) (t : NodeType)
    (h : HandlerChain) (cs : List Node) (x : Node) :
    (Node.mk p t h cs).addChild x = Node.mk p t h (cs ++ [x]) := rfl

@[simp] theorem Node.withHandlers_mk (p : String) (t : NodeType)
    (h h' : HandlerChain) (cs : List Node) :
    (Node.mk p t h cs).withHandlers h' = Node.mk p t h' cs := rfl

@[simp] theorem Node.withHandlers_Path (n : Node) (h : HandlerChain) :
    (n.withHandlers h).Path = n.Path := by cases n; rfl

@[simp] theorem Node.withHandlers_nodeType (n : Node) (h : HandlerChain) :
    (n.withHandlers h).nodeType = n.nodeType := by cases n; rfl

/-- `getD` within bounds yields a member. -/
theorem getD_mem {α : Type} {l : List α} {i : Nat} (d : α)
    (h : i < l.length) : l.getD i d ∈ l := by
  rw [List.getD_eq_getElem l d h]
  exact l.getElem_mem h

/-- Replacing handlers preserves well-formedness. -/
theorem WFNode.withHandlers {n : Node} {h : HandlerChain} (hw : WFNode n) :
    WFNode (n.withHandlers h) := by
  cases hw with
  | mk p t h0 cs hpaths hparam hch => exact WFNode.mk p t h cs hpaths hparam hch

/-- The registration walk preserves a node's own segment and type. -/
theorem addRouteAux_head :
    ∀ (segs : List String) (n : Node) (pE : Bool) (H : HandlerChain),
    (addRouteAux n segs pE H).1.Path = n.Path ∧
    (addRouteAux n segs pE H).1.nodeType = n.nodeType := by
  intro segs
  induction segs with
  | nil => intro n pE H; exact ⟨rfl, rfl⟩
  | cons seg rest ih =>
    intro n pE H
    by_cases hseg : seg = ""
    · simp only [addRouteAux, if_pos hseg]
      exact ih n pE H
    · cases n with
      | mk p t h0 cs =>
        cases hidx : (Node.mk p t h0 cs).Children.findIdx? (childMatch seg)
          with
        | some i =>
          by_cases hrest : rest = []
          · subst hrest
            simp only [addRouteAux, if_neg hseg, hidx, if_true]
            split
            · exact ⟨rfl, rfl⟩
            · simp
          · simp only [addRouteAux, if_neg hseg, hidx, if_neg hrest]
            simp
        | none =>
          by_cases hrest : rest = []
          · subst hrest
            simp only [addRouteAux, if_neg hseg, hidx, if_true]
            simp
          · simp only [addRouteAux, if_neg hseg, hidx, if_neg hrest]
            simp

/-- Setting a position to a node with the same segment keeps the
children's segments pairwise distinct. -/
theorem pairwise_path_set :
    ∀ (cs : List Node) (i : Nat) (x d : Node), i < cs.length →
    x.Path = (cs.getD i d).Path →
    cs.Pairwise (fun a b => a.Path ≠ b.Path) →
    (cs.set i x).Pairwise (fun a b => a.Path ≠ b.Path) := by
  intro cs
  induction cs with
  | nil => intro i x d hi; simp at hi
  | cons c rest ih =>
    intro i x d hi hx hp
    cases i with
    | zero =>
      simp only [List.set_cons_zero]
      rw [List.pairwise_cons] at hp ⊢
      exact ⟨fun b hb => by rw [hx]; exact hp.1 b hb, hp.2⟩
    | succ n =>
      simp only [List.set_cons_succ]
      rw [List.pairwise_cons] at hp ⊢
      have hi' : n < rest.length := by simpa using hi
      refine ⟨fun b hb => ?_, ih n x d hi' (by simpa using hx) hp.2⟩
      rcases List.mem_or_eq_of_mem_set hb with hb' | rfl
      · exact hp.1 b hb'
      · rw [hx]
        exact hp.1 _ (getD_mem d hi')

/-- Setting a position to a node with the same test result keeps the
number of children passing the test. -/
theorem filter_length_set (q : Node → Bool) :
    ∀ (cs : List Node) (i : Nat) (x d : Node), i < cs.length →
    q x = q (cs.getD i d) →
    ((cs.set i x).filter q).length = (cs.filter q).length := by
  intro cs
  induction cs with
  | nil => intro i x d hi; simp at hi
  | cons c rest ih =>
    intro i x d hi hx
    cases i with
    | zero =>
      simp only [List.set_cons_zero, List.filter_cons]
      rw [show q x = q c from hx]
      by_cases hc : q c
      · simp [hc]
      · simp [hc]
    | succ n =>
      simp only [List.set_cons_succ, List.filter_cons]
      have hi' : n < rest.length := by simpa using hi
      by_cases hc : q c
      · simp only [hc, if_true, List.length_cons]
        rw [ih n x d hi' (by simpa using hx)]
      · simp only [hc, Bool.false_eq_true, if_false]
        exact ih n x d hi' (by simpa using hx)

/-- A failed child search means no child's segment equals the new one,
and — when the new segment starts with `:` — no child is a Parameter. -/
theorem findIdx_none_facts {cs : List Node} {seg : String}
    (hidx : cs.findIdx? (childMatch seg) = none) :
    (∀ c ∈ cs, c.Path ≠ seg) ∧
    (seg.front = ':' → ∀ c ∈ cs, c.nodeType ≠ NodeType.Parameter) := by
  have hall := List.findIdx?_eq_none_iff.mp hidx
  constructor
  · intro c hc
    have := hall c hc
    simp [childMatch] at this
    exact this.1
  · intro hfront c hc
    have := hall c hc
    simp [childMatch] at this
    intro ht
    exact absurd hfront (this.2 ht)

/-- The registration walk preserves the structural invariant. -/
theorem addRouteAux_WF :
    ∀ (segs : List String) (n : Node) (pE : Bool) (H : HandlerChain),
    WFNode n → WFNode (addRouteAux n segs pE H).1 := by
  intro segs
  induction segs with
  | nil => intro n pE H hw; exact hw
  | cons seg rest ih =>
    intro n pE H hw
    by_cases hseg : seg = ""
    · simp only [addRouteAux, if_pos hseg]
      exact ih n pE H hw
    · cases hw with
      | mk p t h0 cs hpaths hparam hch =>
        cases hidx : cs.findIdx? (childMatch seg) with
        | some i =>
          have hi : i < cs.length :=
            (List.findIdx?_eq_some_iff_findIdx_eq.mp hidx).1
          by_cases hrest : rest = []
          · subst hrest
            simp only [addRouteAux, Node.Children_mk, if_neg hseg, hidx,
              if_true]
            split
            · exact WFNode.mk p t h0 cs hpaths hparam hch
            · simp only [Node.Children_mk, Node.setChild_mk]
              refine WFNode.mk p t h0 _ ?_ ?_ ?_
              · exact pairwise_path_set cs i _
                  (Node.mk "" NodeType.Static [] []) hi (by simp) hpaths
              · rw [filter_length_set _ cs i _
                  (Node.mk "" NodeType.Static [] []) hi (by simp)]
                exact hparam
              · intro c hc
                rcases List.mem_or_eq_of_mem_set hc with hc' | rfl
                · exact hch c hc'
                · exact (hch _ (getD_mem _ hi)).withHandlers
          · simp only [addRouteAux, Node.Children_mk, if_neg hseg, hidx,
              if_neg hrest, Node.setChild_mk]
            have hchild := hch _ (getD_mem (Node.mk "" NodeType.Static [] []) hi)
            have hhead := addRouteAux_head rest
              (cs.getD i (Node.mk "" NodeType.Static [] [])) pE H
            refine WFNode.mk p t h0 _ ?_ ?_ ?_
            · exact pairwise_path_set cs i _
                (Node.mk "" NodeType.Static [] []) hi hhead.1 hpaths
            · rw [filter_length_set _ cs i _
                (Node.mk "" NodeType.Static [] []) hi (by rw [hhead.2])]
              exact hparam
            · intro c hc
              rcases List.mem_or_eq_of_mem_set hc with hc' | rfl
              · exact hch c hc'
              · exact ih _ pE H hchild
        | none =>
          have hfacts := findIdx_none_facts hidx
          have hnewWF : WFNode (Node.mk seg (segNodeType seg) [] []) :=
            WFNode.mk seg (segNodeType seg) [] [] (by simp) (by simp)
              (by intro c hc; simp at hc)
          have hparamNew : segNodeType seg = NodeType.Parameter →
              (cs.filter fun c =>
                c.nodeType == NodeType.Parameter).length = 0 := by
            intro htype
            have hfront : seg.front = ':' := by
              by_contra hfr
              simp [segNodeType, beq_iff_eq, hfr] at htype
              split at htype <;> simp_all
            rw [List.length_eq_zero, List.filter_eq_nil_iff]
            intro c hc
            have := hfacts.2 hfront c hc
            simp [this]
          by_cases hrest : rest = []
          · subst hrest
            simp only [addRouteAux, Node.Children_mk, if_neg hseg, hidx,
              if_true, Node.addChild_mk]
            refine WFNode.mk p t h0 _ ?_ ?_ ?_
            · rw [List.pairwise_append]
              exact ⟨hpaths, by simp,
                fun a ha b hb => by
                  rw [List.mem_singleton.mp hb]
                  simpa using hfacts.1 a ha⟩
            · rw [List.filter_append]
              by_cases htype : segNodeType seg = NodeType.Parameter
              · rw [List.length_append]
                have := hparamNew htype
                simp only [this]
                simp [htype]
              · rw [List.length_append]
                have : ((([(Node.mk seg (segNodeType seg) [] []
                    ).withHandlers H]).filter fun c =>
                    c.nodeType == NodeType.Parameter)).length = 0 := by
                  simp [htype]
                omega
            · intro c hc
              rcases List.mem_append.mp hc with hc' | hc'
              · exact hch c hc'
              · rw [List.mem_singleton.mp hc']
                exact hnewWF.withHandlers
          · simp only [addRouteAux, Node.Children_mk, if_neg hseg, hidx,
              if_neg hrest, Node.addChild_mk]
            have hhead := addRouteAux_head rest
              (Node.mk seg (segNodeType seg) [] []) false H
            refine WFNode.mk p t h0 _ ?_ ?_ ?_
            · rw [List.pairwise_append]
              exact ⟨hpaths, by simp,
                fun a ha b hb => by
                  rw [List.mem_singleton.mp hb, hhead.1]
                  simpa using hfacts.1 a ha⟩
            · rw [List.filter_append, List.length_append]
              have h1 := List.length_filter_le
                (fun c => c.nodeType == NodeType.Parameter)
                [(addRouteAux (Node.mk seg (segNodeType seg) [] []) rest
                  false H).1]
              simp only [List.length_singleton] at h1
              by_cases htype : segNodeType seg = NodeType.Parameter
              · have h0 := hparamNew htype
                omega
              · have h0 : (([(addRouteAux
                    (Node.mk seg (segNodeType seg) [] []) rest false
                    H).1]).filter fun c =>
                    c.nodeType == NodeType.Parameter).length = 0 := by
                  simp [hhead.2, htype]
                omega
            · intro c hc
              rcases List.mem_append.mp hc with hc' | hc'
              · exact hch c hc'
              · rw [List.mem_singleton.mp hc']
                exact ih _ false H hnewWF

/-- The weight of a node splits off one factor of three. -/
theorem nodeW_split (n : Node) : nodeW n = 3 * 3 ^ (n.size - 1) := by
  obtain ⟨m, hm⟩ : ∃ m, n.size = m + 1 := ⟨n.size - 1, by
    have := n.size_pos; omega⟩
  show 3 ^ n.size = 3 * 3 ^ (n.size - 1)
  rw [hm, Nat.add_sub_cancel, pow_succ]
  ring

/-- Weight of a stack with one record appended. -/
theorem stackW_concat (S : List SkippedNode) (sk : SkippedNode) :
    stackW (S ++ [sk]) = stackW S + nodeW sk.node := by
  rw [stackW_append]
  simp [stackW]

/-- A child's weight is at most the total weight of the children. -/
theorem nodeW_child_le {c : Node} {cs : List Node} (h : c ∈ cs) :
    nodeW c ≤ (cs.map nodeW).sum :=
  List.single_le_sum (fun a _ => Nat.zero_le a) _ (List.mem_map_of_mem _ h)

/-- A Static child's weight plus the weight of the Parameter/Wildcard
children fits inside the total weight of the children: the two parts are
disjoint. -/
theorem static_plus_records_le {c : Node} {cs : List Node} (hc : c ∈ cs)
    (hs : c.nodeType = NodeType.Static) :
    nodeW c + ((cs.filter fun x => x.nodeType == NodeType.Parameter ||
      x.nodeType == NodeType.Wildcard).map nodeW).sum ≤
      (cs.map nodeW).sum := by
  have h1 : nodeW c ≤ ((cs.filter fun x =>
      !(x.nodeType == NodeType.Parameter ||
        x.nodeType == NodeType.Wildcard)).map nodeW).sum :=
    List.single_le_sum (fun a _ => Nat.zero_le a) _
      (List.mem_map_of_mem _ (List.mem_filter.mpr ⟨hc, by simp [hs]⟩))
  have h2 := sum_filter_split nodeW
    (fun x => x.nodeType == NodeType.Parameter ||
      x.nodeType == NodeType.Wildcard) cs
  omega

/-- Filtering a list with one more element keeps at least as many. -/
theorem filter_cons_length_le {α : Type} (q : α → Bool) (c : α)
    (l : List α) : (l.filter q).length ≤ ((c :: l).filter q).length := by
  simp only [List.filter_cons]
  split
  · rw [List.length_cons]
    exact Nat.le_succ _
  · exact Nat.le_refl _

/-- A static loop over children none of which matches the current
segment walks straight through to the parameter loop. -/
theorem sWalk {segments : List String} {node : Node} {index : Nat} :
    ∀ (cs' : List Node) (params : Params) (skipped : List SkippedNode)
      (r : FindResult),
    (∀ c ∈ cs', ¬ (c.nodeType = NodeType.Static ∧
      c.Path = segments.getD index "")) →
    Computes segments
      (SearchFrame.paramLoop node.Children node params index skipped) r →
    Computes segments
      (SearchFrame.staticLoop cs' node params index skipped) r := by
  intro cs'
  induction cs' with
  | nil =>
    intro params skipped r _ hc
    exact Computes.sNil hc
  | cons c rest ih =>
    intro params skipped r hno hc
    exact Computes.sMiss (hno c (List.mem_cons_self _ _))
      (ih params skipped r (fun x hx => hno x (List.mem_cons_of_mem _ hx)) hc)

/-- A parameter loop over children none of which is a Parameter walks
straight through to the wildcard loop. -/
theorem pWalk {segments : List String} {node : Node} {index : Nat} :
    ∀ (cs' : List Node) (params : Params) (skipped : List SkippedNode)
      (r : FindResult),
    (∀ c ∈ cs', ¬ c.nodeType = NodeType.Parameter) →
    Computes segments
      (SearchFrame.wildLoop node.Children node params index skipped) r →
    Computes segments
      (SearchFrame.paramLoop cs' node params index skipped) r := by
  intro cs'
  induction cs' with
  | nil =>
    intro params skipped r _ hc
    exact Computes.pNil hc
  | cons c rest ih =>
    intro params skipped r hno hc
    exact Computes.pMiss (hno c (List.mem_cons_self _ _))
      (ih params skipped r (fun x hx => hno x (List.mem_cons_of_mem _ hx)) hc)

/-- Termination of the search, by strong induction on an exponential
potential: from a well-formed node with a well-formed stack, `findNode`
completes and returns a stack no heavier than the input stack plus the
node's subtree weight; from a well-formed stack, `tryBacktrack` completes
and returns a stack no heavier than the input stack.  Well-formedness is
essential: it caps the static loop at one matching child and the
parameter loop at one Parameter child, so each loop descends at most once
before falling through. -/
theorem search_terminates_aux (segments : List String) :
    ∀ M : Nat,
    (∀ (n : Node) (params : Params) (index : Nat) (S : List SkippedNode),
      WFNode n → WFStack S → 2 * (nodeW n + stackW S) ≤ M →
      ∃ h p sk,
        Computes segments (SearchFrame.atNode n params index S) (h, p, sk) ∧
        stackW sk ≤ stackW S + nodeW n ∧ WFStack sk) ∧
    (∀ (params : Params) (S : List SkippedNode),
      WFStack S → 2 * stackW S + 1 ≤ M →
      ∃ h p sk,
        Computes segments (SearchFrame.backtrack params S) (h, p, sk) ∧
        stackW sk ≤ stackW S ∧ WFStack sk) := by
  intro M
  induction M using Nat.strong_induction_on with
  | _ M ih =>
    have hPlt : ∀ (n : Node) (params : Params) (index : Nat)
        (S : List SkippedNode), WFNode n → WFStack S →
        2 * (nodeW n + stackW S) < M →
        ∃ h p sk,
          Computes segments (SearchFrame.atNode n params index S)
            (h, p, sk) ∧
          stackW sk ≤ stackW S + nodeW n ∧ WFStack sk :=
      fun n params index S hw hs hm =>
        (ih _ hm).1 n params index S hw hs (Nat.le_refl _)
    have hQ : ∀ (params : Params) (S : List SkippedNode), WFStack S →
        2 * stackW S + 1 ≤ M →
        ∃ h p sk,
          Computes segments (SearchFrame.backtrack params S) (h, p, sk) ∧
          stackW sk ≤ stackW S ∧ WFStack sk := by
      intro params S hs hm
      cases hl : S.getLast? with
      | none => exact ⟨[], params, S, Computes.btNil hl, Nat.le_refl _, hs⟩
      | some sk =>
        obtain ⟨S', rfl⟩ := List.getLast?_eq_some_iff.mp hl
        have hdrop : (S' ++ [sk]).dropLast = S' := by simp
        have hsplit := stackW_concat S' sk
        have hwsk : WFNode sk.node := hs sk (by simp)
        have hs' : WFStack S' := fun r hr => hs r (by simp [hr])
        by_cases hpar : sk.node.nodeType = NodeType.Parameter
        · have hm' : 2 * (nodeW sk.node + stackW S') < M := by omega
          obtain ⟨h, p, sk2, hc, hb, hws⟩ :=
            hPlt sk.node (params.take sk.paramsCount ++
              [⟨sk.node.Path.drop 1, segments.getD sk.segmentIdx ""⟩])
              (sk.segmentIdx + 1) S' hwsk hs' hm'
          refine ⟨h, p, sk2, Computes.btParam hl hpar ?_, by omega, hws⟩
          rw [hdrop]
          exact hc
        · by_cases hwild : sk.node.nodeType = NodeType.Wildcard
          · refine ⟨sk.node.Handlers, params.take sk.paramsCount ++
              [⟨sk.node.Path.drop 1, String.intercalate "/"
                (segments.drop sk.segmentIdx)⟩], (S' ++ [sk]).dropLast,
              Computes.btWild hl hwild, ?_, ?_⟩
            · rw [hdrop]
              omega
            · rw [hdrop]
              exact hs'
          · have hm' : 2 * (nodeW sk.node + stackW S') < M := by omega
            obtain ⟨h, p, sk2, hc, hb, hws⟩ :=
              hPlt sk.node (params.take sk.paramsCount)
                (sk.segmentIdx + 1) S' hwsk hs' hm'
            refine ⟨h, p, sk2, Computes.btStatic hl hpar hwild ?_,
              by omega, hws⟩
            rw [hdrop]
            exact hc
    refine ⟨?_, hQ⟩
    intro n params index S hw hs hm
    by_cases hi : segments.length ≤ index
    · by_cases hh : 0 < n.Handlers.length
      · exact ⟨n.Handlers, params, S, Computes.atEnd hi hh,
          Nat.le_add_right _ _, hs⟩
      · have hn1 : 1 ≤ nodeW n := Nat.one_le_pow n.size 3 (by norm_num)
        have hm' : 2 * stackW S + 1 ≤ M := by omega
        obtain ⟨h, p, sk, hc, hb, hws⟩ := hQ params S hs hm'
        exact ⟨h, p, sk, Computes.atEndBt hi hh hc, by omega, hws⟩
    · by_cases ht : segments.getD index "" = "" ∧
          index = segments.length - 1
      · by_cases hh : 0 < n.Handlers.length
        · exact ⟨n.Handlers, params, S, Computes.atTrail hi ht hh,
            Nat.le_add_right _ _, hs⟩
        · have hn1 : 1 ≤ nodeW n := Nat.one_le_pow n.size 3 (by norm_num)
          have hm' : 2 * stackW S + 1 ≤ M := by omega
          obtain ⟨h, p, sk, hc, hb, hws⟩ := hQ params S hs hm'
          exact ⟨h, p, sk, Computes.atTrailBt hi ht hh hc, by omega, hws⟩
      · cases hw with
        | mk np t0 h0 cs hpaths hparam hch =>
          obtain ⟨k, hk3, hcw, hk1⟩ :
              ∃ k, nodeW (Node.mk np t0 h0 cs) = 3 * k ∧
                (cs.map nodeW).sum ≤ k ∧ 1 ≤ k :=
            ⟨3 ^ ((Node.mk np t0 h0 cs).size - 1), nodeW_split _,
              childrenW_le np t0 h0 cs,
              Nat.one_le_pow _ 3 (by norm_num)⟩
          have hq_any : ∀ c ∈ cs, nodeW c ≤ k := by
            intro c hcmem
            have := nodeW_child_le hcmem
            omega
          have hq_static : ∀ c ∈ cs, c.nodeType = NodeType.Static →
              nodeW c + ((cs.filter fun x =>
                x.nodeType == NodeType.Parameter ||
                x.nodeType == NodeType.Wildcard).map nodeW).sum ≤ k := by
            intro c hcmem hcs
            have := static_plus_records_le hcmem hcs
            omega
          have HW : ∀ (cs' : List Node) (params' : Params)
              (S' : List SkippedNode), WFStack S' →
              stackW S' ≤ stackW S + 2 * k →
              ∃ h p sk, Computes segments
                (SearchFrame.wildLoop cs' (Node.mk np t0 h0 cs) params'
                  index S') (h, p, sk) ∧
                stackW sk ≤ stackW S + 2 * k ∧ WFStack sk := by
            intro cs'
            induction cs' with
            | nil =>
              intro params' S' hws' hb'
              have hm' : 2 * stackW S' + 1 ≤ M := by omega
              obtain ⟨h, p, sk, hc, hb2, hws2⟩ := hQ params' S' hws' hm'
              exact ⟨h, p, sk, Computes.wNil hc, by omega, hws2⟩
            | cons c rest ihw =>
              intro params' S' hws' hb'
              by_cases hwild : c.nodeType = NodeType.Wildcard
              · exact ⟨c.Handlers, params' ++ [⟨c.Path.drop 1,
                  String.intercalate "/" (segments.drop index)⟩], S',
                  Computes.wHit hwild, hb', hws'⟩
              · obtain ⟨h, p, sk, hc, hb2, hws2⟩ := ihw params' S' hws' hb'
                exact ⟨h, p, sk, Computes.wMiss hwild hc, hb2, hws2⟩
          have HP : ∀ (cs' : List Node), (∀ x ∈ cs', x ∈ cs) →
              (cs'.filter fun c =>
                c.nodeType == NodeType.Parameter).length ≤ 1 →
              ∀ (params' : Params) (S' : List SkippedNode), WFStack S' →
              stackW S' ≤ stackW S + k →
              ∃ h p sk, Computes segments
                (SearchFrame.paramLoop cs' (Node.mk np t0 h0 cs) params'
                  index S') (h, p, sk) ∧
                stackW sk ≤ stackW S + 2 * k ∧ WFStack sk := by
            intro cs'
            induction cs' with
            | nil =>
              intro _ _ params' S' hws' hb'
              obtain ⟨h, p, sk, hc, hb2, hws2⟩ :=
                HW cs params' S' hws' (by omega)
              exact ⟨h, p, sk, Computes.pNil hc, hb2, hws2⟩
            | cons c rest ihp =>
              intro hmem hone params' S' hws' hb'
              by_cases hpar : c.nodeType = NodeType.Parameter
              · have hcmem : c ∈ cs := hmem c (List.mem_cons_self _ _)
                have hwc : WFNode c := hch c hcmem
                have hcw' : nodeW c ≤ k := hq_any c hcmem
                have hm' : 2 * (nodeW c + stackW S') < M := by omega
                obtain ⟨h1, p1, sk1, hc1, hb1, hws1⟩ :=
                  hPlt c (params' ++
                      [⟨c.Path.drop 1, segments.getD index ""⟩])
                    (index + 1) S' hwc hws' hm'
                by_cases hne : h1 = []
                · subst hne
                  have hcf : ((c :: rest).filter fun c =>
                      c.nodeType == NodeType.Parameter) =
                      c :: (rest.filter fun c =>
                        c.nodeType == NodeType.Parameter) := by
                    simp [List.filter_cons, hpar]
                  have hrest : ∀ x ∈ rest,
                      ¬ x.nodeType = NodeType.Parameter := by
                    intro x hx hxp
                    have hx1 : 0 < (rest.filter fun c =>
                        c.nodeType == NodeType.Parameter).length :=
                      List.length_pos_of_mem
                        (List.mem_filter.mpr ⟨hx, by simp [hxp]⟩)
                    rw [hcf, List.length_cons] at hone
                    omega
                  obtain ⟨h2, p2, sk2, hc2, hb2, hws2⟩ :=
                    HW cs (p1.take params'.length) sk1 hws1 (by omega)
                  refine ⟨h2, p2, sk2, Computes.pCont hpar hc1 ?_,
                    hb2, hws2⟩
                  exact pWalk rest (p1.take params'.length) sk1
                    (h2, p2, sk2) hrest hc2
                · refine ⟨h1, p1, sk1, Computes.pHit hpar hc1 hne,
                    ?_, hws1⟩
                  omega
              · have hone' : (rest.filter fun c =>
                    c.nodeType == NodeType.Parameter).length ≤ 1 :=
                  Nat.le_trans (filter_cons_length_le _ c rest) hone
                obtain ⟨h, p, sk, hc, hb2, hws2⟩ :=
                  ihp (fun x hx => hmem x (List.mem_cons_of_mem _ hx))
                    hone' params' S' hws' hb'
                exact ⟨h, p, sk, Computes.pMiss hpar hc, hb2, hws2⟩
          have HS : ∀ (cs' : List Node), (∀ x ∈ cs', x ∈ cs) →
              cs'.Pairwise (fun a b => a.Path ≠ b.Path) →
              ∀ (params' : Params),
              ∃ h p sk, Computes segments
                (SearchFrame.staticLoop cs' (Node.mk np t0 h0 cs) params'
                  index S) (h, p, sk) ∧
                stackW sk ≤ stackW S + 2 * k ∧ WFStack sk := by
            intro cs'
            induction cs' with
            | nil =>
              intro _ _ params'
              obtain ⟨h, p, sk, hc, hb2, hws2⟩ :=
                HP cs (fun x hx => hx) hparam params' S hs (by omega)
              exact ⟨h, p, sk, Computes.sNil hc, hb2, hws2⟩
            | cons c rest ihs =>
              intro hmem hpw params'
              by_cases hmatch : c.nodeType = NodeType.Static ∧
                  c.Path = segments.getD index ""
              · have hcmem : c ∈ cs := hmem c (List.mem_cons_self _ _)
                have hwc : WFNode c := hch c hcmem
                have hstat := hq_static c hcmem hmatch.1
                have hrecW := stackW_paramWildRecords cs index params'.length
                have hwrec : WFStack
                    (S ++ paramWildRecords cs index params'.length) := by
                  intro r hr
                  rcases List.mem_append.mp hr with hr' | hr'
                  · exact hs r hr'
                  · simp only [paramWildRecords] at hr'
                    obtain ⟨x, hx, rfl⟩ := List.mem_map.mp hr'
                    exact hch x (List.mem_filter.mp hx).1
                have hSW := stackW_append S
                  (paramWildRecords cs index params'.length)
                have hm' : 2 * (nodeW c + stackW
                    (S ++ paramWildRecords cs index params'.length)) < M := by
                  omega
                obtain ⟨h1, p1, sk1, hc1, hb1, hws1⟩ :=
                  hPlt c params' (index + 1)
                    (S ++ paramWildRecords cs index params'.length)
                    hwc hwrec hm'
                by_cases hne : h1 = []
                · subst hne
                  have hnomatch : ∀ x ∈ rest,
                      ¬ (x.nodeType = NodeType.Static ∧
                        x.Path = segments.getD index "") := by
                    intro x hx hxm
                    have hne' := (List.pairwise_cons.mp hpw).1 x hx
                    exact hne' (hmatch.2.trans hxm.2.symm)
                  obtain ⟨h2, p2, sk2, hc2, hb2, hws2⟩ :=
                    HP cs (fun z hz => hz) hparam p1 sk1 hws1 (by omega)
                  refine ⟨h2, p2, sk2, Computes.sCont hmatch hc1 ?_,
                    hb2, hws2⟩
                  exact sWalk rest p1 sk1 (h2, p2, sk2) hnomatch hc2
                · refine ⟨h1, p1, sk1, Computes.sHit hmatch hc1 hne,
                    ?_, hws1⟩
                  omega
              · obtain ⟨h, p, sk, hc, hb2, hws2⟩ :=
                  ihs (fun x hx => hmem x (List.mem_cons_of_mem _ hx))
                    (List.pairwise_cons.mp hpw).2 params'
                exact ⟨h, p, sk, Computes.sMiss hmatch hc, hb2, hws2⟩
          obtain ⟨h, p, sk, hc, hb2, hws2⟩ := HS cs (fun x hx => hx) hpaths params
          exact ⟨h, p, sk, Computes.atStep hi ht hc, by omega, hws2⟩

/-- Registration from the tree root preserves the structural invariant:
the new root is the walk's result, possibly with its handlers replaced. -/
theorem NodeTree.addRoute_WF (nt : NodeTree) (path : String)
    (H : HandlerChain) (hw : WFNode nt.Root) :
    WFNode ((nt.addRoute path H).1.Root) := by
  have h1 : WFNode (addRouteAux nt.Root (splitPath path) true H).1 :=
    addRouteAux_WF _ _ _ _ hw
  cases hres : (addRouteAux nt.Root (splitPath path) true H).2 with
  | some e =>
    simp only [NodeTree.addRoute, hres]
    exact h1
  | none =>
    simp only [NodeTree.addRoute, hres]
    split
    · split
      · exact h1
      · exact h1.withHandlers
    · exact h1

/-- Every tree built by `addRoute` calls has a well-formed root. -/
theorem BuiltTree.WF : ∀ {nt : NodeTree}, BuiltTree nt → WFNode nt.Root := by
  intro nt h
  induction h with
  | new =>
    exact WFNode.mk "/" NodeType.Root [] [] (by simp) (by simp)
      (by intro c hc; simp at hc)
  | add t path H _ ih => exact NodeTree.addRoute_WF t path H ih

/-- C9: for every tree built by a finite sequence of `addRoute` calls
(successful or failing) and every request path, `Find` terminates: some
finite fuel threshold exists past which the fuel-indexed search — one
unit per transfer of control between `findNode`, its child loops and
`tryBacktrack` — returns a definite result instead of running out, so
the mutual recursion of `findNode` and `tryBacktrack` is well-founded on
such trees. -/
theorem find_terminates (nt : NodeTree) (hb : BuiltTree nt)
    (path : String) :
    ∃ F res, ∀ f, F ≤ f → nt.FindFuel f path = some res := by
  have hw : WFNode nt.Root := hb.WF
  obtain ⟨h, p, sk, hc, _, _⟩ :=
    (search_terminates_aux (splitPath path)
      (2 * (nodeW nt.Root + stackW []))).1
      nt.Root [] 0 [] hw (fun r hr => absurd hr (List.not_mem_nil r))
      (Nat.le_refl _)
  obtain ⟨F, hF⟩ := FindFuel_of_computes hc
  exact ⟨F, (h, p), hF⟩

/-- C9 witness: the hypothesis is discharged for the concrete tree with
`/users/:id` registered, on the request `/users/42`. -/
theorem find_terminates_witness :
    BuiltTree (NewNodeTree.addRoute "/users/:id" [7]).1 ∧
    ∃ F res, ∀ f, F ≤ f →
      (NewNodeTree.addRoute "/users/:id" [7]).1.FindFuel f "/users/42" =
        some res :=
  ⟨BuiltTree.add _ _ _ BuiltTree.new,
    find_terminates _ (BuiltTree.add _ _ _ BuiltTree.new) "/users/42"⟩

end Lux
